import Mathlib

/-!
# Verification of the Rumati AVL library (src/avl.c, src/avl.h)

Shallow embedding of the rumati AVL tree library.  The C library stores
opaque `void *` values ordered by a user supplied comparator; descent paths
are recorded in a fixed-size array of `RUMATI_AVL_MAX_HEIGHT` update slots
and consumed bottom-up to restore the AVL balance invariant.

The embedding is polymorphic in the stored value type `α` and takes the
comparator as an explicit function `cmp : α → α → Int` (negative / zero /
positive, as in `RUMATI_AVL_COMPARATOR`).  Pointer-to-pointer slots of the C
code are represented by rebuilding the ancestor chain from the recorded
update frames; a recorded update holds the direction taken together with the
parts of the ancestor node that are not on the descent path.  Errors carry
the tree that is left behind by the operation, so that the no-mutation
guarantees of the error paths are provable statements.

The main instantiation `Val := Int × Nat` models values that carry an
integer key (compared exactly as `intcmp` of src/avltest.c compares ints)
together with a payload that makes distinct values with equal keys
observable.
-/

namespace Rumati

/-- Error codes, mirroring `RUMATI_AVL_ERROR` of src/avl.h. -/
inductive RERR where
  | OK
  | ENOMEM
  | EINVAL
  | ENOENT
  | ETOOBIG
deriving DecidableEq, Repr

/-- Tree nodes, mirroring `struct rumati_avl_node` of src/avl.c: a left
child, a right child (absent children are `nil`, the C `NULL`), a signed
balance factor and the stored data. -/
inductive Node (α : Type) where
  | nil : Node α
  | node (left : Node α) (balance : Int) (data : α) (right : Node α) : Node α
deriving DecidableEq, Repr

/-- `RUMATI_AVL_MAX_HEIGHT` of src/avl.c. -/
def RUMATI_AVL_MAX_HEIGHT : Nat := 40

/-- Height of a tree (in nodes; `nil` has height 0). -/
def height {α : Type} : Node α → Nat
  | .nil => 0
  | .node l _ _ r => max (height l) (height r) + 1

/-- The stored balance factor of the root node (`0` for `nil`; the C code
only reads `->balance` of nodes it knows to exist). -/
def bal {α : Type} : Node α → Int
  | .nil => 0
  | .node _ b _ _ => b

/-- The left child of the root node. -/
def leftN {α : Type} : Node α → Node α
  | .nil => .nil
  | .node l _ _ _ => l

/-- The right child of the root node. -/
def rightN {α : Type} : Node α → Node α
  | .nil => .nil
  | .node _ _ _ r => r

/-- `t = nil`, the C test `pointer == NULL`. -/
def isNil {α : Type} : Node α → Bool
  | .nil => true
  | .node _ _ _ _ => false

/-- Number of nodes in a tree. -/
def size {α : Type} : Node α → Nat
  | .nil => 0
  | .node l _ _ r => size l + size r + 1

/-- In-order traversal of the stored values. -/
def toList {α : Type} : Node α → List α
  | .nil => []
  | .node l _ d r => toList l ++ d :: toList r

/-- The shape of a tree together with all balance fields, forgetting the
stored data; used to state that an operation leaves both the structure and
every balance factor unchanged. -/
def skeleton {α : Type} : Node α → Node Unit
  | .nil => .nil
  | .node l b _ r => .node (skeleton l) b () (skeleton r)

/-- Every stored balance field equals the height of the right subtree minus
the height of the left subtree (recomputed independently from the
structure). -/
def heightsConsistent {α : Type} : Node α → Bool
  | .nil => true
  | .node l b _ r =>
      heightsConsistent l && heightsConsistent r &&
        (b = (height r : Int) - (height l : Int))

/-- Every stored balance field lies in {-1, 0, +1}. -/
def balanceBounded {α : Type} : Node α → Bool
  | .nil => true
  | .node l b _ r => balanceBounded l && balanceBounded r && (-1 ≤ b && b ≤ 1)

/-- The brute-force AVL checker of the specification: every node's balance
field is in {-1,0,+1} and equals right height minus left height. -/
def checkAVL {α : Type} (t : Node α) : Bool :=
  heightsConsistent t && balanceBounded t

/-- `rumati_avl_rotate_right` of src/avl.c.  On the subtree

    ` D          B  `
    `/ \        / \ `
    `B  E  =>  A   D`,
    `/ \          / \`
    `A  C        C   E`

the old root D adopts B's right child C, B adopts D as its right child, and
the two balance fields are updated incrementally: `D.balance++`, then
`D.balance -= B.balance_pre` if `B.balance_pre < 0`; `B.balance++`, then
`B.balance += D.balance_new` if `D.balance_new > 0`.  A subtree whose root
has no left child is returned unchanged (the C function is never called in
that situation). -/
def rumati_avl_rotate_right {α : Type} : Node α → Node α
  | .node (.node a nrb bd c) orb dd e =>
      let db := if nrb < 0 then orb + 1 - nrb else orb + 1
      let bb := if 0 < db then nrb + 1 + db else nrb + 1
      .node a bb bd (.node c db dd e)
  | t => t

/-- `rumati_avl_rotate_left` of src/avl.c, the mirror image of
`rumati_avl_rotate_right`: decrements instead of increments, signs
flipped. -/
def rumati_avl_rotate_left {α : Type} : Node α → Node α
  | .node l orb dd (.node c nrb bd e) =>
      let db := if 0 < nrb then orb - 1 - nrb else orb - 1
      let bb := if db < 0 then nrb - 1 + db else nrb - 1
      .node (.node l db dd c) bb bd e
  | t => t

/-- The rebalancing sequence applied by put/delete to a left-heavy node
(updated balance < -1): if the left child leans right, first rotate the left
child left (double rotation), then rotate the node right. -/
def fixLeftHeavy {α : Type} : Node α → Node α
  | .node l b d r =>
      rumati_avl_rotate_right
        (.node (if 0 < bal l then rumati_avl_rotate_left l else l) b d r)
  | .nil => .nil

/-- The rebalancing sequence applied by put/delete to a right-heavy node
(updated balance > +1): if the right child leans left, first rotate the
right child right (double rotation), then rotate the node left. -/
def fixRightHeavy {α : Type} : Node α → Node α
  | .node l b d r =>
      rumati_avl_rotate_left
        (.node l b d (if bal r < 0 then rumati_avl_rotate_right r else r))
  | .nil => .nil

/-- One entry of `struct rumati_avl_update_list` of src/avl.c: the C code
stores a pointer to the parent's link to the node together with the
direction taken.  Functionally the slot pointer is represented by the parts
of the ancestor node that stay aside of the descent: its balance, its data,
and the child that was not descended into. -/
structure Frame (α : Type) where
  left : Bool
  fbal : Int
  data : α
  other : Node α
deriving DecidableEq, Repr

/-- Reattach a rebuilt child below the ancestor recorded in a frame. -/
def applyFrame {α : Type} (f : Frame α) (child : Node α) : Node α :=
  if f.left then .node child f.fbal f.data f.other
  else .node f.other f.fbal f.data child

/-- Rebuild the tree from a list of frames (deepest ancestor first) without
touching any recorded balance: the reconstruction performed when the update
loops of src/avl.c break out early. -/
def rebuildFrames {α : Type} : List (Frame α) → Node α → Node α
  | [], t => t
  | f :: fs, t => rebuildFrames fs (applyFrame f t)

/-- The `Do updates` loop of `rumati_avl_put` (src/avl.c lines 486-520),
walking the recorded path bottom-up after a fresh leaf was linked in.
On the side the insertion happened under, the ancestor's balance moves
toward that side; a rebalancing rotation (followed by an unconditional
break) fires when the balance passes ±1, and the loop also breaks as soon
as the updated balance indicates that the subtree's height is unchanged. -/
def put_fixup {α : Type} : List (Frame α) → Node α → Node α
  | [], t => t
  | f :: rest, t =>
    if f.left then
      let b := f.fbal - 1
      if b < -1 then rebuildFrames rest (fixLeftHeavy (.node t b f.data f.other))
      else if 0 ≤ b then rebuildFrames rest (.node t b f.data f.other)
      else put_fixup rest (.node t b f.data f.other)
    else
      let b := f.fbal + 1
      if 1 < b then rebuildFrames rest (fixRightHeavy (.node f.other b f.data t))
      else if b ≤ 0 then rebuildFrames rest (.node f.other b f.data t)
      else put_fixup rest (.node f.other b f.data t)

/-- Outcome of the descent loop of `rumati_avl_put`.  Each constructor
carries the tree left behind by the operation (the C tree object after the
call returns). -/
inductive PutR (α : Type) where
  | replaced (old : α) (t : Node α)
  | inserted (t : Node α)
  | nomem (t : Node α)
  | toobig (t : Node α)
deriving DecidableEq, Repr

/-- The descent loop of `rumati_avl_put` (src/avl.c lines 430-477): binary
search for an existing value, recording an update frame before each step
into a child.  `rumati_avl_add_update` refuses a frame when the list already
holds `RUMATI_AVL_MAX_HEIGHT - 1` updates, in which case put returns
`RUMATI_AVL_ETOOBIG`.  An exact match replaces the data in place with no
rebalancing; otherwise a fresh leaf with balance 0 is linked into the slot
the search ended at (when allocation succeeds; `allocOk = false` models a
`malloc` failure, reported as `RUMATI_AVL_ENOMEM`) and the update list is
consumed by `put_fixup`. -/
def put_loop {α : Type} (cmp : α → α → Int) (allocOk : Bool) (v : α) :
    Node α → List (Frame α) → PutR α
  | .nil, acc =>
      if allocOk then .inserted (put_fixup acc (.node .nil 0 v .nil))
      else .nomem (rebuildFrames acc .nil)
  | .node l b d r, acc =>
      let c := cmp v d
      if c = 0 then .replaced d (rebuildFrames acc (.node l b v r))
      else if 0 < c then
        if acc.length = RUMATI_AVL_MAX_HEIGHT - 1 then
          .toobig (rebuildFrames acc (.node l b d r))
        else put_loop cmp allocOk v r (⟨false, b, d, l⟩ :: acc)
      else
        if acc.length = RUMATI_AVL_MAX_HEIGHT - 1 then
          .toobig (rebuildFrames acc (.node l b d r))
        else put_loop cmp allocOk v l (⟨true, b, d, r⟩ :: acc)

/-- `rumati_avl_put` of src/avl.c: returns the error code, the previous
value for the entry (populated into `*old_value`: the previous data on
replace, `NULL` on fresh insert, untouched — modelled `none` — on error)
and the tree after the call. -/
def rumati_avl_put {α : Type} (cmp : α → α → Int) (t : Node α) (v : α)
    (allocOk : Bool) : RERR × Option α × Node α :=
  match put_loop cmp allocOk v t [] with
  | .replaced old t2 => (.OK, some old, t2)
  | .inserted t2 => (.OK, none, t2)
  | .nomem t2 => (.ENOMEM, none, t2)
  | .toobig t2 => (.ETOOBIG, none, t2)

/-- The `Do updates` loop of `rumati_avl_delete` (src/avl.c lines 740-773).
On the side the deletion happened under, the ancestor's balance moves away
from that side; a rotation fires when it passes ±1, and afterwards the loop
breaks only when the rotated subtree kept its height (checked as: the new
root's balance moved to the deleted side and its child on the deleted side
still leans away).  Without a rotation the loop breaks exactly when the
updated balance becomes ±1 (height unchanged) and continues on 0 (height
shrank). -/
def del_fixup {α : Type} : List (Frame α) → Node α → Node α
  | [], t => t
  | f :: rest, t =>
    if f.left then
      let b := f.fbal + 1
      if 1 < b then
        let t2 := fixRightHeavy (.node t b f.data f.other)
        if bal t2 ≤ 0 ∧ 0 < bal (leftN t2) then rebuildFrames rest t2
        else del_fixup rest t2
      else if 0 < b then rebuildFrames rest (.node t b f.data f.other)
      else del_fixup rest (.node t b f.data f.other)
    else
      let b := f.fbal - 1
      if b < -1 then
        let t2 := fixLeftHeavy (.node f.other b f.data t)
        if 0 ≤ bal t2 ∧ bal (rightN t2) < 0 then rebuildFrames rest t2
        else del_fixup rest t2
      else if b < 0 then rebuildFrames rest (.node f.other b f.data t)
      else del_fixup rest (.node f.other b f.data t)

/-- Deletion update loop as the specification describes it (§4.4 / §9 of
spec.md): after a rotation, propagation stops if and only if the rotated
subtree's new root balance is exactly 0, and continues when it is ±1.
Stated for comparison with `del_fixup`, which is the loop the code runs. -/
def del_fixup_specRule {α : Type} : List (Frame α) → Node α → Node α
  | [], t => t
  | f :: rest, t =>
    if f.left then
      let b := f.fbal + 1
      if 1 < b then
        let t2 := fixRightHeavy (.node t b f.data f.other)
        if bal t2 = 0 then rebuildFrames rest t2
        else del_fixup_specRule rest t2
      else if 0 < b then rebuildFrames rest (.node t b f.data f.other)
      else del_fixup_specRule rest (.node t b f.data f.other)
    else
      let b := f.fbal - 1
      if b < -1 then
        let t2 := fixLeftHeavy (.node f.other b f.data t)
        if bal t2 = 0 then rebuildFrames rest t2
        else del_fixup_specRule rest t2
      else if b < 0 then rebuildFrames rest (.node f.other b f.data t)
      else del_fixup_specRule rest (.node f.other b f.data t)

/-- The splice descent of `rumati_avl_delete` for a target with two
children and `balance < 0` (src/avl.c lines 689-704): walk to the rightmost
node of the left subtree, recording a right-direction frame for every node
that still has a right child (each recording checked against the
`RUMATI_AVL_MAX_HEIGHT - 1` capacity, `cnt` being the number of updates
already recorded); the extreme node's data and its left child (which
replaces it) are returned together with the recorded frames, deepest
first. -/
def splice_rightmost {α : Type} [Inhabited α] :
    Node α → Nat → Option (List (Frame α) × α × Node α)
  | .nil, _ => some ([], default, .nil)
  | .node l _ d .nil, _ => some ([], d, l)
  | .node l b d (.node rl rb rd rr), cnt =>
      if cnt = RUMATI_AVL_MAX_HEIGHT - 1 then none
      else
        match splice_rightmost (.node rl rb rd rr) (cnt + 1) with
        | none => none
        | some (fs, x, t0) => some (fs ++ [⟨false, b, d, l⟩], x, t0)

/-- Mirror of `splice_rightmost`: the splice descent for a target with two
children and `balance ≥ 0` (src/avl.c lines 706-720), walking to the
leftmost node of the right subtree. -/
def splice_leftmost {α : Type} [Inhabited α] :
    Node α → Nat → Option (List (Frame α) × α × Node α)
  | .nil, _ => some ([], default, .nil)
  | .node .nil _ d r, _ => some ([], d, r)
  | .node (.node ll lb ld lr) b d r, cnt =>
      if cnt = RUMATI_AVL_MAX_HEIGHT - 1 then none
      else
        match splice_leftmost (.node ll lb ld lr) (cnt + 1) with
        | none => none
        | some (fs, x, t0) => some (fs ++ [⟨true, b, d, r⟩], x, t0)

/-- Outcome of the descent/splice part of `rumati_avl_delete`; each
constructor carries the tree left behind. -/
inductive DelR (α : Type) where
  | found (old : α) (t : Node α)
  | noent (t : Node α)
  | toobig (t : Node α)
deriving DecidableEq, Repr

/-- The search-and-splice loop of `rumati_avl_delete` (src/avl.c lines
667-735), parameterised by the update loop `fixup` run afterwards (the code
runs `del_fixup`).  The walk records a frame before every step into a
child.  At the target: if the balance and a missing child allow it, the
node is spliced out in place (its only child takes its slot); otherwise the
taller side is descended (ties go right: `balance < 0` picks the left
subtree's rightmost node, else the right subtree's leftmost), every step
recorded, the extreme node's data is moved into the target and the extreme
node is spliced out.  The recorded frame for the target therefore carries
the moved-in data.  Any failed recording returns `RUMATI_AVL_ETOOBIG` with
the tree untouched. -/
def del_loop {α : Type} [Inhabited α] (cmp : α → α → Int)
    (fixup : List (Frame α) → Node α → Node α) (k : α) :
    Node α → List (Frame α) → DelR α
  | .nil, acc => .noent (rebuildFrames acc .nil)
  | .node l b d r, acc =>
      let c := cmp k d
      if c = 0 then
        if b ≤ 0 ∧ isNil r then .found d (fixup acc l)
        else if 0 ≤ b ∧ isNil l then .found d (fixup acc r)
        else if b < 0 then
          if acc.length = RUMATI_AVL_MAX_HEIGHT - 1 then
            .toobig (rebuildFrames acc (.node l b d r))
          else
            match splice_rightmost l (acc.length + 1) with
            | none => .toobig (rebuildFrames acc (.node l b d r))
            | some (fs, x, l0) => .found d (fixup (fs ++ ⟨true, b, x, r⟩ :: acc) l0)
        else
          if acc.length = RUMATI_AVL_MAX_HEIGHT - 1 then
            .toobig (rebuildFrames acc (.node l b d r))
          else
            match splice_leftmost r (acc.length + 1) with
            | none => .toobig (rebuildFrames acc (.node l b d r))
            | some (fs, x, r0) => .found d (fixup (fs ++ ⟨false, b, x, l⟩ :: acc) r0)
      else if 0 < c then
        if acc.length = RUMATI_AVL_MAX_HEIGHT - 1 then
          .toobig (rebuildFrames acc (.node l b d r))
        else del_loop cmp fixup k r (⟨false, b, d, l⟩ :: acc)
      else
        if acc.length = RUMATI_AVL_MAX_HEIGHT - 1 then
          .toobig (rebuildFrames acc (.node l b d r))
        else del_loop cmp fixup k l (⟨true, b, d, r⟩ :: acc)

/-- `rumati_avl_delete` of src/avl.c: the error code, the removed value
(populated into `*old_value` on success) and the tree after the call. -/
def rumati_avl_delete {α : Type} [Inhabited α] (cmp : α → α → Int)
    (t : Node α) (k : α) : RERR × Option α × Node α :=
  match del_loop cmp del_fixup k t [] with
  | .found old t2 => (.OK, some old, t2)
  | .noent t2 => (.ENOENT, none, t2)
  | .toobig t2 => (.ETOOBIG, none, t2)

/-- `rumati_avl_delete` with its update loop replaced by
`del_fixup_specRule`, the propagation-stopping rule as the specification
words it; used to compare the code against the specified rule. -/
def rumati_avl_delete_specRule {α : Type} [Inhabited α] (cmp : α → α → Int)
    (t : Node α) (k : α) : RERR × Option α × Node α :=
  match del_loop cmp del_fixup_specRule k t [] with
  | .found old t2 => (.OK, some old, t2)
  | .noent t2 => (.ENOENT, none, t2)
  | .toobig t2 => (.ETOOBIG, none, t2)

/-- `rumati_avl_get` of src/avl.c: descend comparing the key, `none` models
the `return NULL` of the not-found path, `some d` the `return n->data` of a
match. -/
def rumati_avl_get {α : Type} (cmp : α → α → Int) : Node α → α → Option α
  | .nil, _ => none
  | .node l _ d r, k =>
      let c := cmp k d
      if 0 < c then rumati_avl_get cmp r k
      else if c < 0 then rumati_avl_get cmp l k
      else some d

/-- `rumati_avl_get` at the C signature: the function returns a single
`void *`, so the not-found `NULL` and the stored data share one channel.
`nullp` is the value of the null pointer in the universe `α` models. -/
def rumati_avl_get_ptr {α : Type} (cmp : α → α → Int) (nullp : α) :
    Node α → α → α
  | .nil, _ => nullp
  | .node l _ d r, k =>
      let c := cmp k d
      if 0 < c then rumati_avl_get_ptr cmp nullp r k
      else if c < 0 then rumati_avl_get_ptr cmp nullp l k
      else d

/-- `rumati_avl_get_smallest` of src/avl.c: follow left links to the
extreme; `none` models the `NULL` returned for an empty tree. -/
def rumati_avl_get_smallest {α : Type} : Node α → Option α
  | .nil => none
  | .node .nil _ d _ => some d
  | .node (.node ll lb ld lr) _ _ _ => rumati_avl_get_smallest (.node ll lb ld lr)

/-- `rumati_avl_get_greatest` of src/avl.c: follow right links to the
extreme. -/
def rumati_avl_get_greatest {α : Type} : Node α → Option α
  | .nil => none
  | .node _ _ d .nil => some d
  | .node _ _ _ (.node rl rb rd rr) => rumati_avl_get_greatest (.node rl rb rd rr)

/-- Descent loop of `rumati_avl_get_greater_than_or_equal` of src/avl.c,
with `prev` the best candidate recorded so far (the C local starts at
`NULL`, modelled `none`). -/
def gge_loop {α : Type} (cmp : α → α → Int) (k : α) :
    Node α → Option α → Option α
  | .nil, prev => prev
  | .node l _ d r, prev =>
      let c := cmp k d
      if 0 < c then gge_loop cmp k r prev
      else if c < 0 then gge_loop cmp k l (some d)
      else some d

/-- `rumati_avl_get_greater_than_or_equal` of src/avl.c. -/
def rumati_avl_get_greater_than_or_equal {α : Type} (cmp : α → α → Int)
    (t : Node α) (k : α) : Option α :=
  gge_loop cmp k t none

/-- Descent loop of `rumati_avl_get_less_than_or_equal` of src/avl.c. -/
def gle_loop {α : Type} (cmp : α → α → Int) (k : α) :
    Node α → Option α → Option α
  | .nil, prev => prev
  | .node l _ d r, prev =>
      let c := cmp k d
      if 0 < c then gle_loop cmp k r (some d)
      else if c < 0 then gle_loop cmp k l prev
      else some d

/-- `rumati_avl_get_less_than_or_equal` of src/avl.c. -/
def rumati_avl_get_less_than_or_equal {α : Type} (cmp : α → α → Int)
    (t : Node α) (k : α) : Option α :=
  gle_loop cmp k t none

/-- Descent loop of `rumati_avl_get_greater_than` of src/avl.c: on an exact
match, the result is the leftmost node of the right child, or — when the
right child is absent — the best strict candidate recorded on the way
down. -/
def ggt_loop {α : Type} (cmp : α → α → Int) (k : α) :
    Node α → Option α → Option α
  | .nil, prev => prev
  | .node l _ d r, prev =>
      let c := cmp k d
      if 0 < c then ggt_loop cmp k r prev
      else if c < 0 then ggt_loop cmp k l (some d)
      else
        match r with
        | .nil => prev
        | .node rl rb rd rr => rumati_avl_get_smallest (.node rl rb rd rr)

/-- `rumati_avl_get_greater_than` of src/avl.c. -/
def rumati_avl_get_greater_than {α : Type} (cmp : α → α → Int)
    (t : Node α) (k : α) : Option α :=
  ggt_loop cmp k t none

/-- Descent loop of `rumati_avl_get_less_than` of src/avl.c. -/
def glt_loop {α : Type} (cmp : α → α → Int) (k : α) :
    Node α → Option α → Option α
  | .nil, prev => prev
  | .node l _ d r, prev =>
      let c := cmp k d
      if 0 < c then glt_loop cmp k r (some d)
      else if c < 0 then glt_loop cmp k l prev
      else
        match l with
        | .nil => prev
        | .node ll lb ld lr => rumati_avl_get_greatest (.node ll lb ld lr)

/-- `rumati_avl_get_less_than` of src/avl.c. -/
def rumati_avl_get_less_than {α : Type} (cmp : α → α → Int)
    (t : Node α) (k : α) : Option α :=
  glt_loop cmp k t none

/-- The destructor invocations made by
`rumati_avl_destroy_node_recursive` of src/avl.c on a subtree: left
subtree first, then right subtree, then the node's own data
(post-order). -/
def destructorCalls {α : Type} : Node α → List α
  | .nil => []
  | .node l _ d r => destructorCalls l ++ destructorCalls r ++ [d]

/-- `rumati_avl_clear` of src/avl.c: invokes the destructor on every node
reachable from `tree->root` (post-order) and frees the nodes, but does not
modify the `root` field of the tree handle.  The result is the list of
destructor invocations paired with the root link as the call leaves it:
still the old root pointer (now dangling in C). -/
def rumati_avl_clear {α : Type} (root : Node α) : List α × Node α :=
  (destructorCalls root, root)

/-- `rumati_avl_destroy` of src/avl.c: `rumati_avl_clear` on the current
root link, then `free(tree)`.  The result is the list of destructor
invocations the destroy makes. -/
def rumati_avl_destroy {α : Type} (root : Node α) : List α :=
  (rumati_avl_clear root).1

/-! ### Recursive reference forms of the put/delete engines

The loops above mirror the C control flow: an explicit path record consumed
bottom-up with early breaks.  For the proofs they are related to
structurally recursive functions that thread a grew/shrank flag instead of
breaking out of a loop; the per-ancestor update steps are shared. -/

/-- Insert-side balance update of one ancestor when the insertion happened
below its left child (the `update->left` branch of the put update loop):
the new subtree, and whether its height grew so the walk continues. -/
def insStepL {α : Type} (l : Node α) (b : Int) (d : α) (r : Node α) :
    Node α × Bool :=
  let b2 := b - 1
  if b2 < -1 then (fixLeftHeavy (.node l b2 d r), false)
  else if 0 ≤ b2 then (.node l b2 d r, false)
  else (.node l b2 d r, true)

/-- Insert-side balance update when the insertion happened below the right
child. -/
def insStepR {α : Type} (l : Node α) (b : Int) (d : α) (r : Node α) :
    Node α × Bool :=
  let b2 := b + 1
  if 1 < b2 then (fixRightHeavy (.node l b2 d r), false)
  else if b2 ≤ 0 then (.node l b2 d r, false)
  else (.node l b2 d r, true)

/-- Delete-side balance update of one ancestor when the deletion happened
below its left child: the new subtree, and whether its height shrank so the
walk continues. -/
def delStepL {α : Type} (l : Node α) (b : Int) (d : α) (r : Node α) :
    Node α × Bool :=
  let b2 := b + 1
  if 1 < b2 then
    let t2 := fixRightHeavy (.node l b2 d r)
    if bal t2 ≤ 0 ∧ 0 < bal (leftN t2) then (t2, false) else (t2, true)
  else if 0 < b2 then (.node l b2 d r, false)
  else (.node l b2 d r, true)

/-- Delete-side balance update when the deletion happened below the right
child. -/
def delStepR {α : Type} (l : Node α) (b : Int) (d : α) (r : Node α) :
    Node α × Bool :=
  let b2 := b - 1
  if b2 < -1 then
    let t2 := fixLeftHeavy (.node l b2 d r)
    if 0 ≤ bal t2 ∧ bal (rightN t2) < 0 then (t2, false) else (t2, true)
  else if b2 < 0 then (.node l b2 d r, false)
  else (.node l b2 d r, true)

/-- Outcome of the recursive insert: value replaced in place, or a fresh
leaf inserted with a flag telling whether the subtree's height grew. -/
inductive InsR (α : Type) where
  | rep (old : α) (t : Node α)
  | ins (t : Node α) (grew : Bool)
deriving DecidableEq, Repr

/-- Recursive reference form of the put engine. -/
def insRec {α : Type} (cmp : α → α → Int) (v : α) : Node α → InsR α
  | .nil => .ins (.node .nil 0 v .nil) true
  | .node l b d r =>
      let c := cmp v d
      if c = 0 then .rep d (.node l b v r)
      else if 0 < c then
        match insRec cmp v r with
        | .rep o r2 => .rep o (.node l b d r2)
        | .ins r2 g =>
            if g then
              let s := insStepR l b d r2
              .ins s.1 s.2
            else .ins (.node l b d r2) false
      else
        match insRec cmp v l with
        | .rep o l2 => .rep o (.node l2 b d r)
        | .ins l2 g =>
            if g then
              let s := insStepL l2 b d r
              .ins s.1 s.2
            else .ins (.node l2 b d r) false

/-- Recursive reference form of the rightmost-node splice walk: removes the
rightmost node of a nonempty subtree, returning its data, the new subtree
and whether the subtree's height shrank.  On `nil` (never reached from a
consistent tree) it mirrors what the path machinery yields. -/
def delMax {α : Type} [Inhabited α] : Node α → α × Node α × Bool
  | .nil => (default, .nil, true)
  | .node l _ d .nil => (d, l, true)
  | .node l b d (.node rl rb rd rr) =>
      let s := delMax (.node rl rb rd rr)
      if s.2.2 then
        let u := delStepR l b d s.2.1
        (s.1, u.1, u.2)
      else (s.1, .node l b d s.2.1, false)

/-- Mirror of `delMax`: removes the leftmost node. -/
def delMin {α : Type} [Inhabited α] : Node α → α × Node α × Bool
  | .nil => (default, .nil, true)
  | .node .nil _ d r => (d, r, true)
  | .node (.node ll lb ld lr) b d r =>
      let s := delMin (.node ll lb ld lr)
      if s.2.2 then
        let u := delStepL s.2.1 b d r
        (s.1, u.1, u.2)
      else (s.1, .node s.2.1 b d r, false)

/-- Recursive reference form of the delete engine: `none` when the key is
absent, otherwise the removed data, the new subtree and whether its height
shrank. -/
def delRec {α : Type} [Inhabited α] (cmp : α → α → Int) (k : α) :
    Node α → Option (α × Node α × Bool)
  | .nil => none
  | .node l b d r =>
      let c := cmp k d
      if c = 0 then
        if b ≤ 0 ∧ isNil r then some (d, l, true)
        else if 0 ≤ b ∧ isNil l then some (d, r, true)
        else if b < 0 then
          let s := delMax l
          if s.2.2 then
            let u := delStepL s.2.1 b s.1 r
            some (d, u.1, u.2)
          else some (d, .node s.2.1 b s.1 r, false)
        else
          let s := delMin r
          if s.2.2 then
            let u := delStepR l b s.1 s.2.1
            some (d, u.1, u.2)
          else some (d, .node l b s.1 s.2.1, false)
      else if 0 < c then
        match delRec cmp k r with
        | none => none
        | some (o, r2, sh) =>
            if sh then
              let u := delStepR l b d r2
              some (o, u.1, u.2)
            else some (o, .node l b d r2, false)
      else
        match delRec cmp k l with
        | none => none
        | some (o, l2, sh) =>
            if sh then
              let u := delStepL l2 b d r
              some (o, u.1, u.2)
            else some (o, .node l2 b d r, false)

/-- Number of update recordings the put descent makes: one per step into a
child, none at the landing slot. -/
def reqPath {α : Type} (cmp : α → α → Int) (v : α) : Node α → Nat
  | .nil => 0
  | .node l _ d r =>
      let c := cmp v d
      if c = 0 then 0
      else if 0 < c then reqPath cmp v r + 1
      else reqPath cmp v l + 1

/-- Number of update recordings the rightmost-splice walk makes: one per
node that still has a right child. -/
def rightSpine {α : Type} : Node α → Nat
  | .nil => 0
  | .node _ _ _ .nil => 0
  | .node _ _ _ (.node rl rb rd rr) => rightSpine (.node rl rb rd rr) + 1

/-- Number of update recordings the leftmost-splice walk makes. -/
def leftSpine {α : Type} : Node α → Nat
  | .nil => 0
  | .node .nil _ _ _ => 0
  | .node (.node ll lb ld lr) _ _ _ => leftSpine (.node ll lb ld lr) + 1

/-- Number of update recordings the delete descent (including the splice
walk for a two-child target) makes. -/
def reqPathDel {α : Type} (cmp : α → α → Int) (k : α) : Node α → Nat
  | .nil => 0
  | .node l b d r =>
      let c := cmp k d
      if c = 0 then
        if b ≤ 0 ∧ isNil r then 0
        else if 0 ≤ b ∧ isNil l then 0
        else if b < 0 then rightSpine l + 1
        else leftSpine r + 1
      else if 0 < c then reqPathDel cmp k r + 1
      else reqPathDel cmp k l + 1

/-! ### The concrete instantiation used by the claims

Values carry an integer key and a natural payload; the comparator compares
the keys exactly as `intcmp` of src/avltest.c compares two ints. -/

/-- A stored value: an integer key together with a payload distinguishing
values of equal key. -/
abbrev Val := Int × Nat

/-- The comparator of src/avltest.c (`intcmp`), lifted to `Val` keys. -/
def Vcmp (a b : Val) : Int :=
  if a.1 > b.1 then 1 else if a.1 < b.1 then -1 else 0

/-- Trees reachable from the empty tree by any finite sequence of
(successful) `rumati_avl_put` and `rumati_avl_delete` calls under the
`Vcmp` comparator.  Failing calls leave the tree component equal to the
input tree, so they never leave this set. -/
inductive Reachable : Node Val → Prop where
  | empty : Reachable .nil
  | put (t : Node Val) (v : Val) (allocOk : Bool) : Reachable t →
      (rumati_avl_put Vcmp t v allocOk).1 = RERR.OK →
      Reachable (rumati_avl_put Vcmp t v allocOk).2.2
  | del (t : Node Val) (k : Val) : Reachable t →
      (rumati_avl_delete Vcmp t k).1 = RERR.OK →
      Reachable (rumati_avl_delete Vcmp t k).2.2

/-! ### List-level reference operations -/

/-- Linear search of a key in a value list (first match). -/
def lookupKey : List Val → Int → Option Val
  | [], _ => none
  | v :: tl, k => if v.1 = k then some v else lookupKey tl k

/-- Key-ordered insertion into a value list, replacing an existing value
with an equal key. -/
def insList : List Val → Val → List Val
  | [], v => [v]
  | d :: tl, v =>
      if v.1 < d.1 then v :: d :: tl
      else if d.1 < v.1 then d :: insList tl v
      else v :: tl

/-- Removal of the first value with the given key from a value list. -/
def removeKey : List Val → Int → List Val
  | [], _ => []
  | d :: tl, k => if d.1 = k then tl else d :: removeKey tl k

/-- Keys pairwise strictly increasing: the in-order traversal is sorted in
strictly increasing comparator order (hence keys are duplicate-free). -/
def keySorted (L : List Val) : Prop :=
  L.Pairwise fun a b => a.1 < b.1

/-- In-place data replacement along the comparator path, the reference form
of what a put with an existing key does. -/
def replaceNodeData {α : Type} (cmp : α → α → Int) (v : α) : Node α → Node α
  | .nil => .nil
  | .node l b d r =>
      let c := cmp v d
      if 0 < c then .node l b d (replaceNodeData cmp v r)
      else if c < 0 then .node (replaceNodeData cmp v l) b d r
      else .node l b v r

instance (L : List Val) : Decidable (keySorted L) :=
  List.instDecidablePairwise L

/-! ### Pointer-level value model for the null-storage scenario -/

/-- Stored values as modelled `void *` pointers: `none` is the C `NULL`
pointer, `some n` a pointer to an int. -/
abbrev PVal := Option Nat

/-- A user comparator giving a strict total order on `PVal` that treats the
NULL pointer as smaller than every non-null pointer — a legitimate
comparator for a caller who stores NULL as a value. -/
def ncmp (a b : PVal) : Int :=
  match a, b with
  | none, none => 0
  | none, some _ => -1
  | some _, none => 1
  | some x, some y => if x > y then 1 else if x < y then -1 else 0

/-- A tree storing the NULL pointer as a value (reachable by a single
successful put of `NULL` into the empty tree under `ncmp`). -/
def nullTree : Node PVal := .node .nil 0 none .nil

/-- Per-node binary-search-tree ordering: every value in a node's left
subtree has a smaller key than the node's value, every value in its right
subtree a greater one. -/
def bstNodeOrdered : Node Val → Prop
  | .nil => True
  | .node l _ d r =>
      (∀ v ∈ toList l, v.1 < d.1) ∧ (∀ v ∈ toList r, d.1 < v.1) ∧
      bstNodeOrdered l ∧ bstNodeOrdered r

/-- A seven-node AVL tree exercising the delete-rotation stopping rule:
deleting key 10 drives the node holding 20 to balance +2; the rotation's
new root balance is 0, and whether propagation continues to the root is
observable in the root's balance field. -/
def delExample : Node Val :=
  .node (.node (.node .nil 0 (10, 0) .nil) 1 (20, 0)
          (.node .nil 1 (30, 0) (.node .nil 0 (40, 0) .nil)))
    (-1) (50, 0)
    (.node (.node .nil 0 (60, 0) .nil) (-1) (70, 0) .nil)

/-! ## Basic lemmas about frames and traversal -/

theorem rebuildFrames_cons {α : Type} (f : Frame α) (fs : List (Frame α))
    (t : Node α) :
    rebuildFrames (f :: fs) t = rebuildFrames fs (applyFrame f t) := rfl

theorem rebuildFrames_append {α : Type} (fs gs : List (Frame α)) (t : Node α) :
    rebuildFrames (fs ++ gs) t = rebuildFrames gs (rebuildFrames fs t) := by
  induction fs generalizing t with
  | nil => rfl
  | cons f fs ih => simp [rebuildFrames, ih]

theorem toList_rotate_right {α : Type} (t : Node α) :
    toList (rumati_avl_rotate_right t) = toList t := by
  match t with
  | .nil => rfl
  | .node .nil b d r => rfl
  | .node (.node a nb bd c) b d r => simp [rumati_avl_rotate_right, toList]

theorem toList_rotate_left {α : Type} (t : Node α) :
    toList (rumati_avl_rotate_left t) = toList t := by
  match t with
  | .nil => rfl
  | .node l b d .nil => rfl
  | .node l b d (.node c nb bd e) => simp [rumati_avl_rotate_left, toList]

theorem toList_fixLeftHeavy {α : Type} (t : Node α) :
    toList (fixLeftHeavy t) = toList t := by
  cases t with
  | nil => rfl
  | node l b d r =>
      simp only [fixLeftHeavy, toList_rotate_right]
      split <;> simp [toList, toList_rotate_left]

theorem toList_fixRightHeavy {α : Type} (t : Node α) :
    toList (fixRightHeavy t) = toList t := by
  cases t with
  | nil => rfl
  | node l b d r =>
      simp only [fixRightHeavy, toList_rotate_left]
      split <;> simp [toList, toList_rotate_right]

theorem put_fixup_cons {α : Type} (f : Frame α) (rest : List (Frame α))
    (t : Node α) :
    put_fixup (f :: rest) t =
      (let s := if f.left then insStepL t f.fbal f.data f.other
                else insStepR f.other f.fbal f.data t
       if s.2 then put_fixup rest s.1 else rebuildFrames rest s.1) := by
  rcases f with ⟨fl, fb, fd, fo⟩
  cases fl <;>
    simp only [put_fixup, insStepL, insStepR] <;>
    split_ifs <;> simp_all

theorem del_fixup_cons {α : Type} (f : Frame α) (rest : List (Frame α))
    (t : Node α) :
    del_fixup (f :: rest) t =
      (let s := if f.left then delStepL t f.fbal f.data f.other
                else delStepR f.other f.fbal f.data t
       if s.2 then del_fixup rest s.1 else rebuildFrames rest s.1) := by
  rcases f with ⟨fl, fb, fd, fo⟩
  cases fl <;>
    simp only [del_fixup, delStepL, delStepR] <;>
    split_ifs <;> simp_all

theorem heightsConsistent_node {α : Type} {l r : Node α} {b : Int} {d : α} :
    heightsConsistent (.node l b d r) = true ↔
      heightsConsistent l = true ∧ heightsConsistent r = true ∧
        b = (height r : Int) - (height l : Int) := by
  simp [heightsConsistent, and_assoc]

theorem balanceBounded_node {α : Type} {l r : Node α} {b : Int} {d : α} :
    balanceBounded (.node l b d r) = true ↔
      balanceBounded l = true ∧ balanceBounded r = true ∧ -1 ≤ b ∧ b ≤ 1 := by
  simp [balanceBounded, and_assoc]

/-! ## Height and balance bookkeeping of the rebalancing sequences -/

theorem fixLeftHeavy_spec {α : Type} (l r : Node α) (d : α)
    (hl : heightsConsistent l = true) (hr : heightsConsistent r = true)
    (bl : balanceBounded l = true) (br : balanceBounded r = true)
    (hh : height l = height r + 2) :
    heightsConsistent (fixLeftHeavy (.node l (-2) d r)) = true ∧
    balanceBounded (fixLeftHeavy (.node l (-2) d r)) = true ∧
    (bal l = 0 →
      height (fixLeftHeavy (.node l (-2) d r)) = height l + 1 ∧
      bal (fixLeftHeavy (.node l (-2) d r)) = 1 ∧
      bal (rightN (fixLeftHeavy (.node l (-2) d r))) < 0) ∧
    (bal l ≠ 0 →
      height (fixLeftHeavy (.node l (-2) d r)) = height l ∧
      bal (fixLeftHeavy (.node l (-2) d r)) = 0 ∧
      0 ≤ bal (rightN (fixLeftHeavy (.node l (-2) d r)))) := by
  cases l with
  | nil => simp [height] at hh
  | node ll lb ld lr =>
    rw [heightsConsistent_node] at hl
    rw [balanceBounded_node] at bl
    obtain ⟨hll, hlr, hlb⟩ := hl
    obtain ⟨bll, blr, lb1, lb2⟩ := bl
    simp only [height] at hh
    have hlb3 : lb = -1 ∨ lb = 0 ∨ lb = 1 := by omega
    rcases hlb3 with h1 | h1 | h1 <;> subst h1
    · -- single rotation, left child leans left
      have h2 : height lr = height r := by omega
      have h3 : height ll = height r + 1 := by omega
      simp only [fixLeftHeavy, bal]
      norm_num [rumati_avl_rotate_right]
      refine ⟨?_, ?_, ?_⟩
      · rw [heightsConsistent_node, heightsConsistent_node]
        refine ⟨hll, ⟨hlr, hr, by omega⟩, ?_⟩
        simp [height]; omega
      · rw [balanceBounded_node, balanceBounded_node]
        exact ⟨bll, ⟨blr, br, by omega, by omega⟩, by omega, by omega⟩
      · simp [height, bal, rightN]; omega
    · -- single rotation, left child even
      have h2 : height lr = height r + 1 := by omega
      have h3 : height ll = height r + 1 := by omega
      simp only [fixLeftHeavy, bal]
      norm_num [rumati_avl_rotate_right]
      refine ⟨?_, ?_, ?_⟩
      · rw [heightsConsistent_node, heightsConsistent_node]
        refine ⟨hll, ⟨hlr, hr, by omega⟩, ?_⟩
        simp [height]; omega
      · rw [balanceBounded_node, balanceBounded_node]
        exact ⟨bll, ⟨blr, br, by omega, by omega⟩, by omega, by omega⟩
      · simp [height, bal, rightN]; omega
    · -- double rotation, left child leans right
      have h2 : height lr = height r + 1 := by omega
      have h3 : height ll = height r := by omega
      cases lr with
      | nil => simp [height] at h2
      | node lrl lrb lrd lrr =>
        rw [heightsConsistent_node] at hlr
        rw [balanceBounded_node] at blr
        obtain ⟨hlrl, hlrr, hlrb⟩ := hlr
        obtain ⟨blrl, blrr, lrb1, lrb2⟩ := blr
        simp only [height] at h2
        have hlrb3 : lrb = -1 ∨ lrb = 0 ∨ lrb = 1 := by omega
        rcases hlrb3 with h4 | h4 | h4 <;> subst h4 <;>
        · first
          | (have h5 : height lrl = height r ∧ height lrr = height r := by omega
             obtain ⟨h6, h7⟩ := h5)
          | (have h5 : height lrl = height r ∧ height lrr + 1 = height r := by
               omega
             obtain ⟨h6, h7⟩ := h5)
          | (have h5 : height lrl + 1 = height r ∧ height lrr = height r := by
               omega
             obtain ⟨h6, h7⟩ := h5)
          simp only [fixLeftHeavy, bal]
          norm_num [rumati_avl_rotate_left, rumati_avl_rotate_right]
          refine ⟨?_, ?_, ?_⟩
          · rw [heightsConsistent_node, heightsConsistent_node,
              heightsConsistent_node]
            refine ⟨⟨hll, hlrl, by first | (simp [height]; omega) | omega⟩,
              ⟨hlrr, hr, by first | (simp [height]; omega) | omega⟩, ?_⟩
            first | (simp [height]; omega) | omega
          · rw [balanceBounded_node, balanceBounded_node, balanceBounded_node]
            exact ⟨⟨bll, blrl, by omega, by omega⟩,
              ⟨blrr, br, by omega, by omega⟩, by omega, by omega⟩
          · simp [height, bal, rightN]; omega

theorem fixRightHeavy_spec {α : Type} (l r : Node α) (d : α)
    (hl : heightsConsistent l = true) (hr : heightsConsistent r = true)
    (bl : balanceBounded l = true) (br : balanceBounded r = true)
    (hh : height r = height l + 2) :
    heightsConsistent (fixRightHeavy (.node l 2 d r)) = true ∧
    balanceBounded (fixRightHeavy (.node l 2 d r)) = true ∧
    (bal r = 0 →
      height (fixRightHeavy (.node l 2 d r)) = height r + 1 ∧
      bal (fixRightHeavy (.node l 2 d r)) = -1 ∧
      0 < bal (leftN (fixRightHeavy (.node l 2 d r)))) ∧
    (bal r ≠ 0 →
      height (fixRightHeavy (.node l 2 d r)) = height r ∧
      bal (fixRightHeavy (.node l 2 d r)) = 0 ∧
      bal (leftN (fixRightHeavy (.node l 2 d r))) ≤ 0) := by
  cases r with
  | nil => simp [height] at hh
  | node rl rb rd rr =>
    rw [heightsConsistent_node] at hr
    rw [balanceBounded_node] at br
    obtain ⟨hrl, hrr, hrb⟩ := hr
    obtain ⟨brl, brr, rb1, rb2⟩ := br
    simp only [height] at hh
    have hrb3 : rb = 1 ∨ rb = 0 ∨ rb = -1 := by omega
    rcases hrb3 with h1 | h1 | h1 <;> subst h1
    · -- single rotation, right child leans right
      have h2 : height rl = height l := by omega
      have h3 : height rr = height l + 1 := by omega
      simp only [fixRightHeavy, bal]
      norm_num [rumati_avl_rotate_left]
      refine ⟨?_, ?_, ?_⟩
      · rw [heightsConsistent_node, heightsConsistent_node]
        refine ⟨⟨hl, hrl, by omega⟩, hrr, ?_⟩
        simp [height]; omega
      · rw [balanceBounded_node, balanceBounded_node]
        exact ⟨⟨bl, brl, by omega, by omega⟩, brr, by omega, by omega⟩
      · simp [height, bal, leftN]; omega
    · -- single rotation, right child even
      have h2 : height rl = height l + 1 := by omega
      have h3 : height rr = height l + 1 := by omega
      simp only [fixRightHeavy, bal]
      norm_num [rumati_avl_rotate_left]
      refine ⟨?_, ?_, ?_⟩
      · rw [heightsConsistent_node, heightsConsistent_node]
        refine ⟨⟨hl, hrl, by omega⟩, hrr, ?_⟩
        simp [height]; omega
      · rw [balanceBounded_node, balanceBounded_node]
        exact ⟨⟨bl, brl, by omega, by omega⟩, brr, by omega, by omega⟩
      · simp [height, bal, leftN]; omega
    · -- double rotation, right child leans left
      have h2 : height rl = height l + 1 := by omega
      have h3 : height rr = height l := by omega
      cases rl with
      | nil => simp [height] at h2
      | node rll rlb rld rlr =>
        rw [heightsConsistent_node] at hrl
        rw [balanceBounded_node] at brl
        obtain ⟨hrll, hrlr, hrlb⟩ := hrl
        obtain ⟨brll, brlr, rlb1, rlb2⟩ := brl
        simp only [height] at h2
        have hrlb3 : rlb = -1 ∨ rlb = 0 ∨ rlb = 1 := by omega
        rcases hrlb3 with h4 | h4 | h4 <;> subst h4 <;>
        · first
          | (have h5 : height rll = height l ∧ height rlr = height l := by omega
             obtain ⟨h6, h7⟩ := h5)
          | (have h5 : height rll = height l ∧ height rlr + 1 = height l := by
               omega
             obtain ⟨h6, h7⟩ := h5)
          | (have h5 : height rll + 1 = height l ∧ height rlr = height l := by
               omega
             obtain ⟨h6, h7⟩ := h5)
          simp only [fixRightHeavy, bal]
          norm_num [rumati_avl_rotate_left, rumati_avl_rotate_right]
          refine ⟨?_, ?_, ?_⟩
          · rw [heightsConsistent_node, heightsConsistent_node,
              heightsConsistent_node]
            refine ⟨⟨hl, hrll, by first | (simp [height]; omega) | omega⟩,
              ⟨hrlr, hrr, by first | (simp [height]; omega) | omega⟩, ?_⟩
            first | (simp [height]; omega) | omega
          · rw [balanceBounded_node, balanceBounded_node, balanceBounded_node]
            exact ⟨⟨bl, brll, by omega, by omega⟩,
              ⟨brlr, brr, by omega, by omega⟩, by omega, by omega⟩
          · simp [height, bal, leftN]; omega

theorem insStepL_spec {α : Type} (l2 r : Node α) (b : Int) (d : α) (hl0 : Nat)
    (h1 : heightsConsistent l2 = true) (h2 : heightsConsistent r = true)
    (b1 : balanceBounded l2 = true) (b2 : balanceBounded r = true)
    (hb : b = (height r : Int) - (hl0 : Int)) (hb1 : -1 ≤ b) (hb2 : b ≤ 1)
    (hg : height l2 = hl0 + 1) (hnz : bal l2 ≠ 0 ∨ height l2 = 1) :
    heightsConsistent (insStepL l2 b d r).1 = true ∧
    balanceBounded (insStepL l2 b d r).1 = true ∧
    (if (insStepL l2 b d r).2 then
       height (insStepL l2 b d r).1 = (max hl0 (height r) + 1) + 1 ∧
         bal (insStepL l2 b d r).1 ≠ 0
     else height (insStepL l2 b d r).1 = max hl0 (height r) + 1) := by
  have hb3 : b = -1 ∨ b = 0 ∨ b = 1 := by omega
  rcases hb3 with h | h | h <;> subst h
  · -- left subtree was already taller: rebalance, height restored
    have hnz2 : bal l2 ≠ 0 := by
      rcases hnz with h | h
      · exact h
      · omega
    obtain ⟨c1, c2, _, c4⟩ :=
      fixLeftHeavy_spec l2 r d h1 h2 b1 b2 (by omega)
    obtain ⟨e1, e2, _⟩ := c4 hnz2
    simp only [insStepL]
    norm_num
    exact ⟨c1, c2, by omega⟩
  · -- node was even: now leans left, height grew
    simp only [insStepL]
    norm_num
    refine ⟨?_, ?_, ?_, ?_⟩
    · rw [heightsConsistent_node]; exact ⟨h1, h2, by omega⟩
    · rw [balanceBounded_node]; exact ⟨b1, b2, by omega, by omega⟩
    · simp [height]; omega
    · simp [bal]
  · -- right subtree was taller: now even, height unchanged
    simp only [insStepL]
    norm_num
    refine ⟨?_, ?_, ?_⟩
    · rw [heightsConsistent_node]; exact ⟨h1, h2, by omega⟩
    · rw [balanceBounded_node]; exact ⟨b1, b2, by omega, by omega⟩
    · simp [height]; omega

theorem insStepR_spec {α : Type} (l r2 : Node α) (b : Int) (d : α) (hr0 : Nat)
    (h1 : heightsConsistent l = true) (h2 : heightsConsistent r2 = true)
    (b1 : balanceBounded l = true) (b2 : balanceBounded r2 = true)
    (hb : b = (hr0 : Int) - (height l : Int)) (hb1 : -1 ≤ b) (hb2 : b ≤ 1)
    (hg : height r2 = hr0 + 1) (hnz : bal r2 ≠ 0 ∨ height r2 = 1) :
    heightsConsistent (insStepR l b d r2).1 = true ∧
    balanceBounded (insStepR l b d r2).1 = true ∧
    (if (insStepR l b d r2).2 then
       height (insStepR l b d r2).1 = (max (height l) hr0 + 1) + 1 ∧
         bal (insStepR l b d r2).1 ≠ 0
     else height (insStepR l b d r2).1 = max (height l) hr0 + 1) := by
  have hb3 : b = 1 ∨ b = 0 ∨ b = -1 := by omega
  rcases hb3 with h | h | h <;> subst h
  · have hnz2 : bal r2 ≠ 0 := by
      rcases hnz with h | h
      · exact h
      · omega
    obtain ⟨c1, c2, _, c4⟩ :=
      fixRightHeavy_spec l r2 d h1 h2 b1 b2 (by omega)
    obtain ⟨e1, e2, _⟩ := c4 hnz2
    simp only [insStepR]
    norm_num
    exact ⟨c1, c2, by omega⟩
  · simp only [insStepR]
    norm_num
    refine ⟨?_, ?_, ?_, ?_⟩
    · rw [heightsConsistent_node]; exact ⟨h1, h2, by omega⟩
    · rw [balanceBounded_node]; exact ⟨b1, b2, by omega, by omega⟩
    · simp [height]; omega
    · simp [bal]
  · simp only [insStepR]
    norm_num
    refine ⟨?_, ?_, ?_⟩
    · rw [heightsConsistent_node]; exact ⟨h1, h2, by omega⟩
    · rw [balanceBounded_node]; exact ⟨b1, b2, by omega, by omega⟩
    · simp [height]; omega

theorem delStepR_spec {α : Type} (l r2 : Node α) (b : Int) (d : α) (hr0 : Nat)
    (h1 : heightsConsistent l = true) (h2 : heightsConsistent r2 = true)
    (b1 : balanceBounded l = true) (b2 : balanceBounded r2 = true)
    (hb : b = (hr0 : Int) - (height l : Int)) (hb1 : -1 ≤ b) (hb2 : b ≤ 1)
    (hs : height r2 + 1 = hr0) :
    heightsConsistent (delStepR l b d r2).1 = true ∧
    balanceBounded (delStepR l b d r2).1 = true ∧
    (if (delStepR l b d r2).2 then
       height (delStepR l b d r2).1 + 1 = max (height l) hr0 + 1
     else height (delStepR l b d r2).1 = max (height l) hr0 + 1) := by
  have hb3 : b = 1 ∨ b = 0 ∨ b = -1 := by omega
  rcases hb3 with h | h | h <;> subst h
  · -- right was taller: now even, height shrank, continue
    simp only [delStepR]
    norm_num
    refine ⟨?_, ?_, ?_⟩
    · rw [heightsConsistent_node]; exact ⟨h1, h2, by omega⟩
    · rw [balanceBounded_node]; exact ⟨b1, b2, by omega, by omega⟩
    · simp [height]; omega
  · -- was even: now leans left, height unchanged, stop
    simp only [delStepR]
    norm_num
    refine ⟨?_, ?_, ?_⟩
    · rw [heightsConsistent_node]; exact ⟨h1, h2, by omega⟩
    · rw [balanceBounded_node]; exact ⟨b1, b2, by omega, by omega⟩
    · simp [height]; omega
  · -- left was taller: rebalance; stop exactly when height is kept
    obtain ⟨c1, c2, c3, c4⟩ :=
      fixLeftHeavy_spec l r2 d h1 h2 b1 b2 (by omega)
    simp only [delStepR]
    norm_num
    by_cases hz : bal l = 0
    · obtain ⟨e1, e2, e3⟩ := c3 hz
      rw [if_pos (by exact ⟨by omega, e3⟩)]
      norm_num
      exact ⟨c1, c2, by omega⟩
    · obtain ⟨e1, e2, e3⟩ := c4 hz
      rw [if_neg (by omega)]
      norm_num
      exact ⟨c1, c2, by omega⟩

theorem delStepL_spec {α : Type} (l2 r : Node α) (b : Int) (d : α) (hl0 : Nat)
    (h1 : heightsConsistent l2 = true) (h2 : heightsConsistent r = true)
    (b1 : balanceBounded l2 = true) (b2 : balanceBounded r = true)
    (hb : b = (height r : Int) - (hl0 : Int)) (hb1 : -1 ≤ b) (hb2 : b ≤ 1)
    (hs : height l2 + 1 = hl0) :
    heightsConsistent (delStepL l2 b d r).1 = true ∧
    balanceBounded (delStepL l2 b d r).1 = true ∧
    (if (delStepL l2 b d r).2 then
       height (delStepL l2 b d r).1 + 1 = max hl0 (height r) + 1
     else height (delStepL l2 b d r).1 = max hl0 (height r) + 1) := by
  have hb3 : b = -1 ∨ b = 0 ∨ b = 1 := by omega
  rcases hb3 with h | h | h <;> subst h
  · simp only [delStepL]
    norm_num
    refine ⟨?_, ?_, ?_⟩
    · rw [heightsConsistent_node]; exact ⟨h1, h2, by omega⟩
    · rw [balanceBounded_node]; exact ⟨b1, b2, by omega, by omega⟩
    · simp [height]; omega
  · simp only [delStepL]
    norm_num
    refine ⟨?_, ?_, ?_⟩
    · rw [heightsConsistent_node]; exact ⟨h1, h2, by omega⟩
    · rw [balanceBounded_node]; exact ⟨b1, b2, by omega, by omega⟩
    · simp [height]; omega
  · obtain ⟨c1, c2, c3, c4⟩ :=
      fixRightHeavy_spec l2 r d h1 h2 b1 b2 (by omega)
    simp only [delStepL]
    norm_num
    by_cases hz : bal r = 0
    · obtain ⟨e1, e2, e3⟩ := c3 hz
      rw [if_pos (by exact ⟨by omega, e3⟩)]
      norm_num
      exact ⟨c1, c2, by omega⟩
    · obtain ⟨e1, e2, e3⟩ := c4 hz
      rw [if_neg (by omega)]
      norm_num
      exact ⟨c1, c2, by omega⟩

/-! ## AVL preservation of the recursive insert -/

theorem insRec_spec {α : Type} (cmp : α → α → Int) (v : α) :
    ∀ t : Node α,
    heightsConsistent t = true → balanceBounded t = true →
    (match insRec cmp v t with
     | .rep _ t2 => heightsConsistent t2 = true ∧ balanceBounded t2 = true ∧
         height t2 = height t
     | .ins t2 g => heightsConsistent t2 = true ∧ balanceBounded t2 = true ∧
         (if g then height t2 = height t + 1 ∧ (bal t2 ≠ 0 ∨ height t2 = 1)
          else height t2 = height t)) := by
  intro t
  induction t with
  | nil =>
      intro _ _
      simp [insRec, heightsConsistent, balanceBounded, height, bal]
  | node l b d r ihl ihr =>
      intro hc bd
      rw [heightsConsistent_node] at hc
      rw [balanceBounded_node] at bd
      obtain ⟨hcl, hcr, hcb⟩ := hc
      obtain ⟨bdl, bdr, hbl, hbr⟩ := bd
      simp only [insRec]
      by_cases h0 : cmp v d = 0
      · simp only [h0, if_pos rfl]
        refine ⟨?_, ?_, ?_⟩
        · rw [heightsConsistent_node]; exact ⟨hcl, hcr, hcb⟩
        · rw [balanceBounded_node]; exact ⟨bdl, bdr, hbl, hbr⟩
        · simp [height]
      · by_cases h1 : 0 < cmp v d
        · rw [if_neg h0, if_pos h1]
          have ih := ihr hcr bdr
          rcases hrec : insRec cmp v r with ⟨o, r2⟩ | ⟨r2, g⟩ <;> rw [hrec] at ih
          · obtain ⟨i1, i2, i3⟩ := ih
            refine ⟨?_, ?_, ?_⟩
            · rw [heightsConsistent_node]; exact ⟨hcl, i1, by omega⟩
            · rw [balanceBounded_node]; exact ⟨bdl, i2, hbl, hbr⟩
            · simp [height]; omega
          · cases g with
            | false =>
                norm_num at ih ⊢
                obtain ⟨i1, i2, i3⟩ := ih
                refine ⟨?_, ?_, ?_⟩
                · rw [heightsConsistent_node]; exact ⟨hcl, i1, by omega⟩
                · rw [balanceBounded_node]; exact ⟨bdl, i2, hbl, hbr⟩
                · simp [height]; omega
            | true =>
                norm_num at ih
                obtain ⟨i1, i2, i3, i4⟩ := ih
                have sp := insStepR_spec l r2 b d (height r) hcl i1 bdl i2
                  hcb hbl hbr i3 i4
                obtain ⟨s1, s2, s3⟩ := sp
                refine ⟨s1, s2, ?_⟩
                by_cases hgg : (insStepR l b d r2).2 = true
                · rw [if_pos hgg] at s3 ⊢
                  simp only [height]
                  exact ⟨by omega, Or.inl s3.2⟩
                · rw [if_neg hgg] at s3 ⊢
                  simp only [height]
                  omega
        · rw [if_neg h0, if_neg h1]
          have ih := ihl hcl bdl
          rcases hrec : insRec cmp v l with ⟨o, l2⟩ | ⟨l2, g⟩ <;> rw [hrec] at ih
          · obtain ⟨i1, i2, i3⟩ := ih
            refine ⟨?_, ?_, ?_⟩
            · rw [heightsConsistent_node]; exact ⟨i1, hcr, by omega⟩
            · rw [balanceBounded_node]; exact ⟨i2, bdr, hbl, hbr⟩
            · simp [height]; omega
          · cases g with
            | false =>
                norm_num at ih ⊢
                obtain ⟨i1, i2, i3⟩ := ih
                refine ⟨?_, ?_, ?_⟩
                · rw [heightsConsistent_node]; exact ⟨i1, hcr, by omega⟩
                · rw [balanceBounded_node]; exact ⟨i2, bdr, hbl, hbr⟩
                · simp [height]; omega
            | true =>
                norm_num at ih
                obtain ⟨i1, i2, i3, i4⟩ := ih
                have sp := insStepL_spec l2 r b d (height l) i1 hcr i2 bdr
                  hcb hbl hbr i3 i4
                obtain ⟨s1, s2, s3⟩ := sp
                refine ⟨s1, s2, ?_⟩
                by_cases hgg : (insStepL l2 b d r).2 = true
                · rw [if_pos hgg] at s3 ⊢
                  simp only [height]
                  exact ⟨by omega, Or.inl s3.2⟩
                · rw [if_neg hgg] at s3 ⊢
                  simp only [height]
                  omega

/-! ## AVL preservation of the recursive delete -/

theorem delMax_spec {α : Type} [Inhabited α] :
    ∀ t : Node α, t ≠ .nil →
    heightsConsistent t = true → balanceBounded t = true →
    (heightsConsistent (delMax t).2.1 = true ∧
     balanceBounded (delMax t).2.1 = true ∧
     (if (delMax t).2.2 then height (delMax t).2.1 + 1 = height t
      else height (delMax t).2.1 = height t)) := by
  intro t
  induction t with
  | nil => intro h; exact absurd rfl h
  | node l b d r ihl ihr =>
    intro _ hc bd
    rw [heightsConsistent_node] at hc
    rw [balanceBounded_node] at bd
    obtain ⟨hcl, hcr, hcb⟩ := hc
    obtain ⟨bdl, bdr, hbl, hbr⟩ := bd
    cases r with
    | nil =>
        simp only [delMax]
        norm_num
        refine ⟨hcl, bdl, ?_⟩
        simp only [height] at hcb ⊢
        simp at hcb
        omega
    | node rl rb rd rr =>
        have ih := ihr (by simp) hcr bdr
        simp only [delMax]
        rcases hs2 : delMax (.node rl rb rd rr) with ⟨x, r2, sh⟩
        rw [hs2] at ih
        obtain ⟨i1, i2, i3⟩ := ih
        cases sh with
        | false =>
            norm_num at i3 ⊢
            simp only [height] at i3 hcb
            refine ⟨?_, ?_, ?_⟩
            · rw [heightsConsistent_node]; exact ⟨hcl, i1, by omega⟩
            · rw [balanceBounded_node]; exact ⟨bdl, i2, hbl, hbr⟩
            · simp [height]; omega
        | true =>
            norm_num at i3 ⊢
            have sp := delStepR_spec l r2 b d (height (Node.node rl rb rd rr))
              hcl i1 bdl i2 hcb hbl hbr (by omega)
            obtain ⟨s1, s2, s3⟩ := sp
            refine ⟨s1, s2, ?_⟩
            by_cases hgg : (delStepR l b d r2).2 = true
            · rw [if_pos hgg] at s3 ⊢
              simp only [height] at s3 ⊢
              omega
            · rw [if_neg hgg] at s3 ⊢
              simp only [height] at s3 ⊢
              omega

theorem delMin_spec {α : Type} [Inhabited α] :
    ∀ t : Node α, t ≠ .nil →
    heightsConsistent t = true → balanceBounded t = true →
    (heightsConsistent (delMin t).2.1 = true ∧
     balanceBounded (delMin t).2.1 = true ∧
     (if (delMin t).2.2 then height (delMin t).2.1 + 1 = height t
      else height (delMin t).2.1 = height t)) := by
  intro t
  induction t with
  | nil => intro h; exact absurd rfl h
  | node l b d r ihl ihr =>
    intro _ hc bd
    rw [heightsConsistent_node] at hc
    rw [balanceBounded_node] at bd
    obtain ⟨hcl, hcr, hcb⟩ := hc
    obtain ⟨bdl, bdr, hbl, hbr⟩ := bd
    cases l with
    | nil =>
        simp only [delMin]
        norm_num
        refine ⟨hcr, bdr, ?_⟩
        simp only [height] at hcb ⊢
        simp at hcb
        omega
    | node ll lb ld lr =>
        have ih := ihl (by simp) hcl bdl
        simp only [delMin]
        rcases hs2 : delMin (.node ll lb ld lr) with ⟨x, l2, sh⟩
        rw [hs2] at ih
        obtain ⟨i1, i2, i3⟩ := ih
        cases sh with
        | false =>
            norm_num at i3 ⊢
            simp only [height] at i3 hcb
            refine ⟨?_, ?_, ?_⟩
            · rw [heightsConsistent_node]; exact ⟨i1, hcr, by omega⟩
            · rw [balanceBounded_node]; exact ⟨i2, bdr, hbl, hbr⟩
            · simp [height]; omega
        | true =>
            norm_num at i3 ⊢
            have sp := delStepL_spec l2 r b d (height (Node.node ll lb ld lr))
              i1 hcr i2 bdr hcb hbl hbr (by omega)
            obtain ⟨s1, s2, s3⟩ := sp
            refine ⟨s1, s2, ?_⟩
            by_cases hgg : (delStepL l2 b d r).2 = true
            · rw [if_pos hgg] at s3 ⊢
              simp only [height] at s3 ⊢
              omega
            · rw [if_neg hgg] at s3 ⊢
              simp only [height] at s3 ⊢
              omega

theorem delRec_spec {α : Type} [Inhabited α] (cmp : α → α → Int) (k : α) :
    ∀ t : Node α,
    heightsConsistent t = true → balanceBounded t = true →
    (match delRec cmp k t with
     | none => True
     | some (_, t2, sh) =>
         heightsConsistent t2 = true ∧ balanceBounded t2 = true ∧
         (if sh then height t2 + 1 = height t else height t2 = height t)) := by
  intro t
  induction t with
  | nil => intro _ _; simp [delRec]
  | node l b d r ihl ihr =>
    intro hc bd
    rw [heightsConsistent_node] at hc
    rw [balanceBounded_node] at bd
    obtain ⟨hcl, hcr, hcb⟩ := hc
    obtain ⟨bdl, bdr, hbl, hbr⟩ := bd
    simp only [delRec]
    by_cases h0 : cmp k d = 0
    · rw [if_pos h0]
      by_cases h1 : b ≤ 0 ∧ isNil r = true
      · rw [if_pos h1]
        have hr0 : r = Node.nil := by
          cases r with
          | nil => rfl
          | node _ _ _ _ => simp [isNil] at h1
        subst hr0
        norm_num
        refine ⟨hcl, bdl, ?_⟩
        simp only [height]
        omega
      · rw [if_neg h1]
        by_cases h2 : 0 ≤ b ∧ isNil l = true
        · rw [if_pos h2]
          have hl0 : l = Node.nil := by
            cases l with
            | nil => rfl
            | node _ _ _ _ => simp [isNil] at h2
          subst hl0
          norm_num
          refine ⟨hcr, bdr, ?_⟩
          simp only [height]
          omega
        · rw [if_neg h2]
          by_cases h3 : b < 0
          · rw [if_pos h3]
            have hlne : l ≠ Node.nil := by
              intro h
              subst h
              simp [height] at hcb
              omega
            have sp := delMax_spec l hlne hcl bdl
            rcases hs : delMax l with ⟨x, l2, sh⟩
            rw [hs] at sp
            obtain ⟨s1, s2, s3⟩ := sp
            norm_num at s1 s2 s3
            cases sh with
            | false =>
                norm_num at s3 ⊢
                refine ⟨?_, ?_, ?_⟩
                · rw [heightsConsistent_node]; exact ⟨s1, hcr, by omega⟩
                · rw [balanceBounded_node]; exact ⟨s2, bdr, hbl, hbr⟩
                · simp only [height]; omega
            | true =>
                norm_num at s3 ⊢
                have sq := delStepL_spec l2 r b x (height l) s1 hcr s2 bdr
                  hcb hbl hbr (by omega)
                obtain ⟨q1, q2, q3⟩ := sq
                refine ⟨q1, q2, ?_⟩
                by_cases hgg : (delStepL l2 b x r).2 = true
                · rw [if_pos hgg] at q3 ⊢
                  simp only [height] at q3 ⊢
                  omega
                · rw [if_neg hgg] at q3 ⊢
                  simp only [height] at q3 ⊢
                  omega
          · rw [if_neg h3]
            have hrne : r ≠ Node.nil := by
              intro h
              subst h
              simp [height] at hcb
              simp [isNil] at h1 h2
              cases l with
              | nil => simp [height] at hcb; omega
              | node _ _ _ _ =>
                  simp at h2
                  simp [height] at hcb
                  omega
            have sp := delMin_spec r hrne hcr bdr
            rcases hs : delMin r with ⟨x, r2, sh⟩
            rw [hs] at sp
            obtain ⟨s1, s2, s3⟩ := sp
            norm_num at s1 s2 s3
            cases sh with
            | false =>
                norm_num at s3 ⊢
                refine ⟨?_, ?_, ?_⟩
                · rw [heightsConsistent_node]; exact ⟨hcl, s1, by omega⟩
                · rw [balanceBounded_node]; exact ⟨bdl, s2, hbl, hbr⟩
                · simp only [height]; omega
            | true =>
                norm_num at s3 ⊢
                have sq := delStepR_spec l r2 b x (height r) hcl s1 bdl s2
                  hcb hbl hbr (by omega)
                obtain ⟨q1, q2, q3⟩ := sq
                refine ⟨q1, q2, ?_⟩
                by_cases hgg : (delStepR l b x r2).2 = true
                · rw [if_pos hgg] at q3 ⊢
                  simp only [height] at q3 ⊢
                  omega
                · rw [if_neg hgg] at q3 ⊢
                  simp only [height] at q3 ⊢
                  omega
    · by_cases h1 : 0 < cmp k d
      · rw [if_neg h0, if_pos h1]
        have ih := ihr hcr bdr
        rcases hrec : delRec cmp k r with _ | ⟨o, r2, sh⟩ <;> rw [hrec] at ih
        · trivial
        · obtain ⟨i1, i2, i3⟩ := ih
          cases sh with
          | false =>
              norm_num at i3 ⊢
              refine ⟨?_, ?_, ?_⟩
              · rw [heightsConsistent_node]; exact ⟨hcl, i1, by omega⟩
              · rw [balanceBounded_node]; exact ⟨bdl, i2, hbl, hbr⟩
              · simp only [height]; omega
          | true =>
              norm_num at i3 ⊢
              have sq := delStepR_spec l r2 b d (height r) hcl i1 bdl i2
                hcb hbl hbr (by omega)
              obtain ⟨q1, q2, q3⟩ := sq
              refine ⟨q1, q2, ?_⟩
              by_cases hgg : (delStepR l b d r2).2 = true
              · rw [if_pos hgg] at q3 ⊢
                simp only [height] at q3 ⊢
                omega
              · rw [if_neg hgg] at q3 ⊢
                simp only [height] at q3 ⊢
                omega
      · rw [if_neg h0, if_neg h1]
        have ih := ihl hcl bdl
        rcases hrec : delRec cmp k l with _ | ⟨o, l2, sh⟩ <;> rw [hrec] at ih
        · trivial
        · obtain ⟨i1, i2, i3⟩ := ih
          cases sh with
          | false =>
              norm_num at i3 ⊢
              refine ⟨?_, ?_, ?_⟩
              · rw [heightsConsistent_node]; exact ⟨i1, hcr, by omega⟩
              · rw [balanceBounded_node]; exact ⟨i2, bdr, hbl, hbr⟩
              · simp only [height]; omega
          | true =>
              norm_num at i3 ⊢
              have sq := delStepL_spec l2 r b d (height l) i1 hcr i2 bdr
                hcb hbl hbr (by omega)
              obtain ⟨q1, q2, q3⟩ := sq
              refine ⟨q1, q2, ?_⟩
              by_cases hgg : (delStepL l2 b d r).2 = true
              · rw [if_pos hgg] at q3 ⊢
                simp only [height] at q3 ⊢
                omega
              · rw [if_neg hgg] at q3 ⊢
                simp only [height] at q3 ⊢
                omega

/-! ## Equivalence of the path-record loops with the recursive forms -/

theorem applyFrame_left {α : Type} (b : Int) (d : α) (r child : Node α) :
    applyFrame ⟨true, b, d, r⟩ child = .node child b d r := rfl

theorem applyFrame_right {α : Type} (b : Int) (d : α) (l child : Node α) :
    applyFrame ⟨false, b, d, l⟩ child = .node l b d child := rfl



theorem put_loop_eq {α : Type} (cmp : α → α → Int) (allocOk : Bool) (v : α) :
    ∀ (t : Node α) (acc : List (Frame α)),
    acc.length ≤ RUMATI_AVL_MAX_HEIGHT - 1 →
    put_loop cmp allocOk v t acc =
      (if RUMATI_AVL_MAX_HEIGHT - 1 < acc.length + reqPath cmp v t then
        .toobig (rebuildFrames acc t)
      else
        match insRec cmp v t with
        | .rep o t2 => .replaced o (rebuildFrames acc t2)
        | .ins t2 g =>
            if allocOk then
              .inserted (if g then put_fixup acc t2 else rebuildFrames acc t2)
            else .nomem (rebuildFrames acc t)) := by
  have h40 : RUMATI_AVL_MAX_HEIGHT = 40 := rfl
  intro t
  induction t with
  | nil =>
      intro acc hacc
      simp only [put_loop, reqPath, insRec]
      have hc1 : ¬ (RUMATI_AVL_MAX_HEIGHT - 1 < acc.length + 0) := by omega
      rw [if_neg hc1]
      cases allocOk <;> norm_num
  | node l b d r ihl ihr =>
      intro acc hacc
      simp only [put_loop, reqPath, insRec]
      by_cases h0 : cmp v d = 0
      · simp only [h0]
        norm_num
        rw [if_neg (show ¬ (RUMATI_AVL_MAX_HEIGHT - 1 < acc.length) from by omega)]
      · by_cases h1 : 0 < cmp v d
        · simp only [if_neg h0, if_pos h1]
          by_cases h2 : acc.length = RUMATI_AVL_MAX_HEIGHT - 1
          · rw [if_pos h2,
              if_pos (show RUMATI_AVL_MAX_HEIGHT - 1 <
                acc.length + (reqPath cmp v r + 1) by omega)]
          · rw [if_neg h2]
            rw [ihr (⟨false, b, d, l⟩ :: acc) (by simp only [List.length_cons]; omega)]
            simp only [List.length_cons]
            by_cases h3 :
                RUMATI_AVL_MAX_HEIGHT - 1 < acc.length + (reqPath cmp v r + 1)
            · rw [if_pos (show RUMATI_AVL_MAX_HEIGHT - 1 <
                  acc.length + 1 + reqPath cmp v r by omega), if_pos h3]
              rw [rebuildFrames_cons, applyFrame_right]
            · rw [if_neg (show ¬ (RUMATI_AVL_MAX_HEIGHT - 1 <
                  acc.length + 1 + reqPath cmp v r) by omega), if_neg h3]
              rcases hrec : insRec cmp v r with ⟨o, r2⟩ | ⟨r2, g⟩
              · dsimp only
                rw [rebuildFrames_cons, applyFrame_right]
              · dsimp only
                cases g with
                | false =>
                    cases allocOk <;> norm_num <;>
                      rw [rebuildFrames_cons, applyFrame_right]
                | true =>
                    cases allocOk with
                    | false =>
                        norm_num
                        rw [rebuildFrames_cons, applyFrame_right]
                    | true =>
                        norm_num
                        rw [put_fixup_cons]
                        norm_num [insStepR]
        · simp only [if_neg h0, if_neg h1]
          by_cases h2 : acc.length = RUMATI_AVL_MAX_HEIGHT - 1
          · rw [if_pos h2,
              if_pos (show RUMATI_AVL_MAX_HEIGHT - 1 <
                acc.length + (reqPath cmp v l + 1) by omega)]
          · rw [if_neg h2]
            rw [ihl (⟨true, b, d, r⟩ :: acc) (by simp only [List.length_cons]; omega)]
            simp only [List.length_cons]
            by_cases h3 :
                RUMATI_AVL_MAX_HEIGHT - 1 < acc.length + (reqPath cmp v l + 1)
            · rw [if_pos (show RUMATI_AVL_MAX_HEIGHT - 1 <
                  acc.length + 1 + reqPath cmp v l by omega), if_pos h3]
              rw [rebuildFrames_cons, applyFrame_left]
            · rw [if_neg (show ¬ (RUMATI_AVL_MAX_HEIGHT - 1 <
                  acc.length + 1 + reqPath cmp v l) by omega), if_neg h3]
              rcases hrec : insRec cmp v l with ⟨o, l2⟩ | ⟨l2, g⟩
              · dsimp only
                rw [rebuildFrames_cons, applyFrame_left]
              · dsimp only
                cases g with
                | false =>
                    cases allocOk <;> norm_num <;>
                      rw [rebuildFrames_cons, applyFrame_left]
                | true =>
                    cases allocOk with
                    | false =>
                        norm_num
                        rw [rebuildFrames_cons, applyFrame_left]
                    | true =>
                        norm_num
                        rw [put_fixup_cons]
                        norm_num [insStepL]



theorem splice_rightmost_eq {α : Type} [Inhabited α] :
    ∀ (l : Node α) (cnt : Nat), cnt ≤ RUMATI_AVL_MAX_HEIGHT - 1 →
    (if RUMATI_AVL_MAX_HEIGHT - 1 < cnt + rightSpine l then
       splice_rightmost l cnt = none
     else
       ∃ fs t0, splice_rightmost l cnt = some (fs, (delMax l).1, t0) ∧
         ∀ acc2 : List (Frame α), del_fixup (fs ++ acc2) t0 =
           (if (delMax l).2.2 then del_fixup acc2 (delMax l).2.1
            else rebuildFrames acc2 (delMax l).2.1)) := by
  have h40 : RUMATI_AVL_MAX_HEIGHT = 40 := rfl
  intro l
  induction l with
  | nil =>
      intro cnt hcnt
      rw [if_neg (show ¬ (RUMATI_AVL_MAX_HEIGHT - 1 < cnt + rightSpine (Node.nil : Node α))
        from by simp only [rightSpine]; omega)]
      refine ⟨[], .nil, rfl, ?_⟩
      intro acc2
      simp [delMax]
  | node l0 b d r ihl ihr =>
      cases r with
      | nil =>
          intro cnt hcnt
          rw [if_neg (show ¬ (RUMATI_AVL_MAX_HEIGHT - 1 <
            cnt + rightSpine (Node.node l0 b d .nil)) from by
              simp only [rightSpine]; omega)]
          refine ⟨[], l0, rfl, ?_⟩
          intro acc2
          simp [delMax]
      | node rl rb rd rr =>
          intro cnt hcnt
          simp only [splice_rightmost, rightSpine]
          by_cases h2 : cnt = RUMATI_AVL_MAX_HEIGHT - 1
          · rw [if_pos h2, if_pos (by omega)]
          · rw [if_neg h2]
            have ih := ihr (cnt + 1) (by omega)
            by_cases h3 : RUMATI_AVL_MAX_HEIGHT - 1 <
                (cnt + 1) + rightSpine (Node.node rl rb rd rr)
            · rw [if_pos h3] at ih
              rw [ih, if_pos (by omega)]
            · rw [if_neg h3] at ih
              rw [if_neg (by omega)]
              obtain ⟨fs, t0, heq, hfix⟩ := ih
              rw [heq]
              refine ⟨fs ++ [⟨false, b, d, l0⟩], t0, ?_, ?_⟩
              · simp only [delMax]
                rcases hs : delMax (Node.node rl rb rd rr) with ⟨x, r2, sh⟩
                cases sh <;> simp
              · intro acc2
                rw [List.append_assoc, List.cons_append, List.nil_append,
                  hfix (⟨false, b, d, l0⟩ :: acc2)]
                simp only [delMax]
                rcases hs : delMax (Node.node rl rb rd rr) with ⟨x, r2, sh⟩
                cases sh with
                | false =>
                    norm_num
                    rw [rebuildFrames_cons, applyFrame_right]
                | true =>
                    norm_num
                    rw [del_fixup_cons]
                    norm_num

theorem splice_leftmost_eq {α : Type} [Inhabited α] :
    ∀ (r : Node α) (cnt : Nat), cnt ≤ RUMATI_AVL_MAX_HEIGHT - 1 →
    (if RUMATI_AVL_MAX_HEIGHT - 1 < cnt + leftSpine r then
       splice_leftmost r cnt = none
     else
       ∃ fs t0, splice_leftmost r cnt = some (fs, (delMin r).1, t0) ∧
         ∀ acc2 : List (Frame α), del_fixup (fs ++ acc2) t0 =
           (if (delMin r).2.2 then del_fixup acc2 (delMin r).2.1
            else rebuildFrames acc2 (delMin r).2.1)) := by
  have h40 : RUMATI_AVL_MAX_HEIGHT = 40 := rfl
  intro r
  induction r with
  | nil =>
      intro cnt hcnt
      rw [if_neg (show ¬ (RUMATI_AVL_MAX_HEIGHT - 1 < cnt + leftSpine (Node.nil : Node α))
        from by simp only [leftSpine]; omega)]
      refine ⟨[], .nil, rfl, ?_⟩
      intro acc2
      simp [delMin]
  | node l b d r0 ihl ihr =>
      cases l with
      | nil =>
          intro cnt hcnt
          rw [if_neg (show ¬ (RUMATI_AVL_MAX_HEIGHT - 1 <
            cnt + leftSpine (Node.node .nil b d r0)) from by
              simp only [leftSpine]; omega)]
          refine ⟨[], r0, rfl, ?_⟩
          intro acc2
          simp [delMin]
      | node ll lb ld lr =>
          intro cnt hcnt
          simp only [splice_leftmost, leftSpine]
          by_cases h2 : cnt = RUMATI_AVL_MAX_HEIGHT - 1
          · rw [if_pos h2, if_pos (by omega)]
          · rw [if_neg h2]
            have ih := ihl (cnt + 1) (by omega)
            by_cases h3 : RUMATI_AVL_MAX_HEIGHT - 1 <
                (cnt + 1) + leftSpine (Node.node ll lb ld lr)
            · rw [if_pos h3] at ih
              rw [ih, if_pos (by omega)]
            · rw [if_neg h3] at ih
              rw [if_neg (by omega)]
              obtain ⟨fs, t0, heq, hfix⟩ := ih
              rw [heq]
              refine ⟨fs ++ [⟨true, b, d, r0⟩], t0, ?_, ?_⟩
              · simp only [delMin]
                rcases hs : delMin (Node.node ll lb ld lr) with ⟨x, l2, sh⟩
                cases sh <;> simp
              · intro acc2
                rw [List.append_assoc, List.cons_append, List.nil_append,
                  hfix (⟨true, b, d, r0⟩ :: acc2)]
                simp only [delMin]
                rcases hs : delMin (Node.node ll lb ld lr) with ⟨x, l2, sh⟩
                cases sh with
                | false =>
                    norm_num
                    rw [rebuildFrames_cons, applyFrame_left]
                | true =>
                    norm_num
                    rw [del_fixup_cons]
                    norm_num


theorem del_loop_eq {α : Type} [Inhabited α] (cmp : α → α → Int) (k : α) :
    ∀ (t : Node α) (acc : List (Frame α)),
    acc.length ≤ RUMATI_AVL_MAX_HEIGHT - 1 →
    del_loop cmp del_fixup k t acc =
      (if RUMATI_AVL_MAX_HEIGHT - 1 < acc.length + reqPathDel cmp k t then
        .toobig (rebuildFrames acc t)
      else
        match delRec cmp k t with
        | none => .noent (rebuildFrames acc t)
        | some (o, t2, sh) =>
            .found o (if sh then del_fixup acc t2 else rebuildFrames acc t2)) := by
  have h40 : RUMATI_AVL_MAX_HEIGHT = 40 := rfl
  intro t
  induction t with
  | nil =>
      intro acc hacc
      simp only [del_loop, reqPathDel, delRec]
      rw [if_neg (show ¬ (RUMATI_AVL_MAX_HEIGHT - 1 < acc.length + 0) from by
        omega)]
  | node l b d r ihl ihr =>
      intro acc hacc
      simp only [del_loop, reqPathDel, delRec]
      by_cases h0 : cmp k d = 0
      · simp only [h0, reduceIte]
        by_cases h1 : b ≤ 0 ∧ isNil r = true
        · rw [if_pos h1, if_pos h1, if_pos h1,
            if_neg (show ¬ (RUMATI_AVL_MAX_HEIGHT - 1 < acc.length + 0) from by
              omega)]
          norm_num
        · rw [if_neg h1, if_neg h1, if_neg h1]
          by_cases h2 : 0 ≤ b ∧ isNil l = true
          · rw [if_pos h2, if_pos h2, if_pos h2,
              if_neg (show ¬ (RUMATI_AVL_MAX_HEIGHT - 1 < acc.length + 0) from by
                omega)]
            norm_num
          · rw [if_neg h2, if_neg h2, if_neg h2]
            by_cases h3 : b < 0
            · rw [if_pos h3, if_pos h3, if_pos h3]
              by_cases h4 : acc.length = RUMATI_AVL_MAX_HEIGHT - 1
              · rw [if_pos h4, if_pos (show RUMATI_AVL_MAX_HEIGHT - 1 <
                  acc.length + (rightSpine l + 1) from by omega)]
              · rw [if_neg h4]
                have sl := splice_rightmost_eq l (acc.length + 1) (by omega)
                by_cases h5 : RUMATI_AVL_MAX_HEIGHT - 1 <
                    acc.length + 1 + rightSpine l
                · rw [if_pos h5] at sl
                  rw [sl, if_pos (show RUMATI_AVL_MAX_HEIGHT - 1 <
                    acc.length + (rightSpine l + 1) from by omega)]
                · rw [if_neg h5] at sl
                  obtain ⟨fs, t0, heq, hfix⟩ := sl
                  rw [heq,
                    if_neg (show ¬ (RUMATI_AVL_MAX_HEIGHT - 1 <
                      acc.length + (rightSpine l + 1)) from by omega)]
                  dsimp only
                  rw [hfix]
                  rcases hs : delMax l with ⟨x, l2, sh⟩
                  dsimp only
                  cases sh with
                  | false =>
                      norm_num
                      rw [rebuildFrames_cons, applyFrame_left]
                  | true =>
                      norm_num
                      rw [del_fixup_cons]
                      norm_num
            · rw [if_neg h3, if_neg h3, if_neg h3]
              by_cases h4 : acc.length = RUMATI_AVL_MAX_HEIGHT - 1
              · rw [if_pos h4, if_pos (show RUMATI_AVL_MAX_HEIGHT - 1 <
                  acc.length + (leftSpine r + 1) from by omega)]
              · rw [if_neg h4]
                have sl := splice_leftmost_eq r (acc.length + 1) (by omega)
                by_cases h5 : RUMATI_AVL_MAX_HEIGHT - 1 <
                    acc.length + 1 + leftSpine r
                · rw [if_pos h5] at sl
                  rw [sl, if_pos (show RUMATI_AVL_MAX_HEIGHT - 1 <
                    acc.length + (leftSpine r + 1) from by omega)]
                · rw [if_neg h5] at sl
                  obtain ⟨fs, t0, heq, hfix⟩ := sl
                  rw [heq,
                    if_neg (show ¬ (RUMATI_AVL_MAX_HEIGHT - 1 <
                      acc.length + (leftSpine r + 1)) from by omega)]
                  dsimp only
                  rw [hfix]
                  rcases hs : delMin r with ⟨x, r2, sh⟩
                  dsimp only
                  cases sh with
                  | false =>
                      norm_num
                      rw [rebuildFrames_cons, applyFrame_right]
                  | true =>
                      norm_num
                      rw [del_fixup_cons]
                      norm_num
      · by_cases h1 : 0 < cmp k d
        · simp only [if_neg h0, if_pos h1]
          by_cases h2 : acc.length = RUMATI_AVL_MAX_HEIGHT - 1
          · rw [if_pos h2, if_pos (show RUMATI_AVL_MAX_HEIGHT - 1 <
              acc.length + (reqPathDel cmp k r + 1) from by omega)]
          · rw [if_neg h2]
            rw [ihr (⟨false, b, d, l⟩ :: acc)
              (by simp only [List.length_cons]; omega)]
            simp only [List.length_cons]
            by_cases h3 : RUMATI_AVL_MAX_HEIGHT - 1 <
                acc.length + (reqPathDel cmp k r + 1)
            · rw [if_pos (show RUMATI_AVL_MAX_HEIGHT - 1 <
                  acc.length + 1 + reqPathDel cmp k r from by omega), if_pos h3]
              rw [rebuildFrames_cons, applyFrame_right]
            · rw [if_neg (show ¬ (RUMATI_AVL_MAX_HEIGHT - 1 <
                  acc.length + 1 + reqPathDel cmp k r) from by omega),
                if_neg h3]
              rcases hrec : delRec cmp k r with _ | ⟨o, r2, sh⟩
              · dsimp only
                rw [rebuildFrames_cons, applyFrame_right]
              · dsimp only
                cases sh with
                | false =>
                    norm_num
                    rw [rebuildFrames_cons, applyFrame_right]
                | true =>
                    norm_num
                    rw [del_fixup_cons]
                    norm_num
        · simp only [if_neg h0, if_neg h1]
          by_cases h2 : acc.length = RUMATI_AVL_MAX_HEIGHT - 1
          · rw [if_pos h2, if_pos (show RUMATI_AVL_MAX_HEIGHT - 1 <
              acc.length + (reqPathDel cmp k l + 1) from by omega)]
          · rw [if_neg h2]
            rw [ihl (⟨true, b, d, r⟩ :: acc)
              (by simp only [List.length_cons]; omega)]
            simp only [List.length_cons]
            by_cases h3 : RUMATI_AVL_MAX_HEIGHT - 1 <
                acc.length + (reqPathDel cmp k l + 1)
            · rw [if_pos (show RUMATI_AVL_MAX_HEIGHT - 1 <
                  acc.length + 1 + reqPathDel cmp k l from by omega), if_pos h3]
              rw [rebuildFrames_cons, applyFrame_left]
            · rw [if_neg (show ¬ (RUMATI_AVL_MAX_HEIGHT - 1 <
                  acc.length + 1 + reqPathDel cmp k l) from by omega),
                if_neg h3]
              rcases hrec : delRec cmp k l with _ | ⟨o, l2, sh⟩
              · dsimp only
                rw [rebuildFrames_cons, applyFrame_left]
              · dsimp only
                cases sh with
                | false =>
                    norm_num
                    rw [rebuildFrames_cons, applyFrame_left]
                | true =>
                    norm_num
                    rw [del_fixup_cons]
                    norm_num


theorem Vcmp_zero {a b : Val} : Vcmp a b = 0 ↔ a.1 = b.1 := by
  simp only [Vcmp]
  split_ifs <;> constructor <;> intro h <;> first | omega | exact h.elim

theorem Vcmp_pos {a b : Val} : 0 < Vcmp a b ↔ b.1 < a.1 := by
  simp only [Vcmp]
  split_ifs <;> constructor <;> intro h <;> first | omega | exact h.elim

theorem Vcmp_neg {a b : Val} : Vcmp a b < 0 ↔ a.1 < b.1 := by
  simp only [Vcmp]
  split_ifs <;> constructor <;> intro h <;> first | omega | exact h.elim

theorem lookupKey_eq_none {L : List Val} {k : Int}
    (h : ∀ v ∈ L, v.1 ≠ k) : lookupKey L k = none := by
  induction L with
  | nil => rfl
  | cons d tl ih =>
      simp only [lookupKey]
      rw [if_neg (h d (by simp))]
      exact ih (fun v hv => h v (by simp [hv]))

theorem lookupKey_append_skip {L1 L2 : List Val} {k : Int}
    (h : ∀ v ∈ L1, v.1 ≠ k) :
    lookupKey (L1 ++ L2) k = lookupKey L2 k := by
  induction L1 with
  | nil => rfl
  | cons d tl ih =>
      simp only [List.cons_append, lookupKey]
      rw [if_neg (h d (by simp))]
      exact ih (fun v hv => h v (by simp [hv]))

theorem lookupKey_append_stop {L1 L2 : List Val} {k : Int}
    (h : ∀ v ∈ L2, v.1 ≠ k) :
    lookupKey (L1 ++ L2) k = lookupKey L1 k := by
  induction L1 with
  | nil => exact lookupKey_eq_none h
  | cons d tl ih =>
      simp only [List.cons_append, lookupKey]
      by_cases hd : d.1 = k
      · rw [if_pos hd, if_pos hd]
      · rw [if_neg hd, if_neg hd]
        exact ih

theorem lookupKey_insList_self (L : List Val) (v : Val) :
    lookupKey (insList L v) v.1 = some v := by
  induction L with
  | nil => simp [insList, lookupKey]
  | cons d tl ih =>
      simp only [insList]
      by_cases h1 : v.1 < d.1
      · rw [if_pos h1]
        simp [lookupKey]
      · rw [if_neg h1]
        by_cases h2 : d.1 < v.1
        · rw [if_pos h2]
          simp only [lookupKey]
          rw [if_neg (by omega)]
          exact ih
        · rw [if_neg h2]
          simp [lookupKey]

theorem removeKey_append_skip {L1 L2 : List Val} {k : Int}
    (h : ∀ v ∈ L1, v.1 ≠ k) :
    removeKey (L1 ++ L2) k = L1 ++ removeKey L2 k := by
  induction L1 with
  | nil => rfl
  | cons d tl ih =>
      simp only [List.cons_append, removeKey, List.append_eq]
      rw [if_neg (h d (by simp))]
      rw [ih (fun v hv => h v (by simp [hv]))]

theorem lookupKey_removeKey_self {L : List Val} {k : Int}
    (h : keySorted L) : lookupKey (removeKey L k) k = none := by
  induction L with
  | nil => rfl
  | cons d tl ih =>
      rw [keySorted, List.pairwise_cons] at h
      obtain ⟨hd, htl⟩ := h
      simp only [removeKey]
      by_cases h1 : d.1 = k
      · rw [if_pos h1]
        exact lookupKey_eq_none (fun v hv => by
          have := hd v hv
          omega)
      · rw [if_neg h1]
        simp only [lookupKey]
        rw [if_neg h1]
        exact ih htl

theorem mem_insList {L : List Val} {v a : Val}
    (h : a ∈ insList L v) : a ∈ L ∨ a = v := by
  induction L with
  | nil =>
      simp only [insList] at h
      exact Or.inr (List.mem_singleton.mp h)
  | cons d tl ih =>
      simp only [insList] at h
      split_ifs at h with h1 h2
      · rcases List.mem_cons.mp h with h3 | h3
        · exact Or.inr h3
        · exact Or.inl h3
      · rcases List.mem_cons.mp h with h3 | h3
        · exact Or.inl (List.mem_cons.mpr (Or.inl h3))
        · rcases ih h3 with h4 | h4
          · exact Or.inl (List.mem_cons.mpr (Or.inr h4))
          · exact Or.inr h4
      · rcases List.mem_cons.mp h with h3 | h3
        · exact Or.inr h3
        · exact Or.inl (List.mem_cons.mpr (Or.inr h3))

theorem keySorted_insList {L : List Val} (v : Val)
    (h : keySorted L) : keySorted (insList L v) := by
  induction L with
  | nil => simp [insList, keySorted]
  | cons d tl ih =>
      rw [keySorted, List.pairwise_cons] at h
      obtain ⟨hd, htl⟩ := h
      simp only [insList]
      split_ifs with h1 h2
      · rw [keySorted, List.pairwise_cons]
        refine ⟨?_, ?_⟩
        · intro b hb
          rcases List.mem_cons.mp hb with h3 | h3
          · rw [h3]; exact h1
          · have h4 := hd b h3
            omega
        · rw [List.pairwise_cons]
          exact ⟨hd, htl⟩
      · rw [keySorted, List.pairwise_cons]
        refine ⟨?_, ?_⟩
        · intro b hb
          rcases mem_insList hb with h3 | h3
          · exact hd b h3
          · rw [h3]; exact h2
        · exact ih htl
      · rw [keySorted, List.pairwise_cons]
        refine ⟨?_, ?_⟩
        · intro b hb
          have h4 := hd b hb
          omega
        · exact htl

theorem removeKey_sublist (L : List Val) (k : Int) :
    (removeKey L k).Sublist L := by
  induction L with
  | nil => simp [removeKey]
  | cons d tl ih =>
      simp only [removeKey]
      split_ifs with h1
      · exact List.sublist_cons_self d tl
      · exact List.Sublist.cons₂ d ih

theorem keySorted_removeKey {L : List Val} (k : Int)
    (h : keySorted L) : keySorted (removeKey L k) := by
  exact List.Pairwise.sublist (removeKey_sublist L k) h


theorem insList_append_lt {L1 L2 : List Val} {d v : Val} (h : v.1 < d.1) :
    insList (L1 ++ d :: L2) v = insList L1 v ++ d :: L2 := by
  induction L1 with
  | nil => simp [insList, if_pos h]
  | cons e tl ih =>
      simp only [List.cons_append, insList]
      split_ifs <;> simp [ih]

theorem insList_append_gt {L1 L2 : List Val} {d v : Val}
    (hall : ∀ e ∈ L1, e.1 < v.1) (h : d.1 < v.1) :
    insList (L1 ++ d :: L2) v = L1 ++ d :: insList L2 v := by
  induction L1 with
  | nil =>
      simp only [List.nil_append, insList]
      rw [if_neg (by omega), if_pos h]
  | cons e tl ih =>
      have he := hall e (by simp)
      simp only [List.cons_append, insList, List.append_eq]
      rw [if_neg (by omega), if_pos he,
        ih (fun x hx => hall x (by simp [hx]))]

theorem insList_append_eq {L1 L2 : List Val} {d v : Val}
    (hall : ∀ e ∈ L1, e.1 < v.1) (h : v.1 = d.1) :
    insList (L1 ++ d :: L2) v = L1 ++ v :: L2 := by
  induction L1 with
  | nil =>
      simp only [List.nil_append, insList]
      rw [if_neg (by omega), if_neg (by omega)]
  | cons e tl ih =>
      have he := hall e (by simp)
      simp only [List.cons_append, insList, List.append_eq]
      rw [if_neg (by omega), if_pos he,
        ih (fun x hx => hall x (by simp [hx]))]

theorem get_eq_lookupKey : ∀ t : Node Val, keySorted (toList t) →
    ∀ q : Val, rumati_avl_get Vcmp t q = lookupKey (toList t) q.1 := by
  intro t
  induction t with
  | nil => intro _ q; rfl
  | node l b d r ihl ihr =>
      intro hs q
      rw [keySorted] at hs
      simp only [toList] at hs ⊢
      rw [List.pairwise_append] at hs
      obtain ⟨hl, hdr, hcross⟩ := hs
      rw [List.pairwise_cons] at hdr
      obtain ⟨hdR, hr⟩ := hdr
      simp only [rumati_avl_get]
      by_cases h1 : 0 < Vcmp q d
      · rw [if_pos h1]
        have hq : d.1 < q.1 := Vcmp_pos.mp h1
        rw [lookupKey_append_skip (fun v hv => by
          have h3 := hcross v hv d (by simp)
          omega)]
        simp only [lookupKey]
        rw [if_neg (by omega)]
        exact ihr hr q
      · rw [if_neg h1]
        by_cases h2 : Vcmp q d < 0
        · rw [if_pos h2]
          have hq : q.1 < d.1 := Vcmp_neg.mp h2
          rw [lookupKey_append_stop (fun v hv => ?_)]
          · exact ihl hl q
          · rcases List.mem_cons.mp hv with h3 | h3
            · rw [h3]; omega
            · have h4 := hdR v h3
              omega
        · rw [if_neg h2]
          have hq : q.1 = d.1 := Vcmp_zero.mp (by omega)
          rw [lookupKey_append_skip (fun v hv => by
            have h3 := hcross v hv d (by simp)
            omega)]
          simp only [lookupKey]
          rw [if_pos hq.symm]

theorem insStepL_toList {α : Type} (l : Node α) (b : Int) (d : α) (r : Node α) :
    toList (insStepL l b d r).1 = toList l ++ d :: toList r := by
  simp only [insStepL]
  split_ifs <;> simp [toList, toList_fixLeftHeavy]

theorem insStepR_toList {α : Type} (l : Node α) (b : Int) (d : α) (r : Node α) :
    toList (insStepR l b d r).1 = toList l ++ d :: toList r := by
  simp only [insStepR]
  split_ifs <;> simp [toList, toList_fixRightHeavy]

theorem delStepL_toList {α : Type} (l : Node α) (b : Int) (d : α) (r : Node α) :
    toList (delStepL l b d r).1 = toList l ++ d :: toList r := by
  simp only [delStepL]
  split_ifs <;> simp [toList, toList_fixRightHeavy]

theorem delStepR_toList {α : Type} (l : Node α) (b : Int) (d : α) (r : Node α) :
    toList (delStepR l b d r).1 = toList l ++ d :: toList r := by
  simp only [delStepR]
  split_ifs <;> simp [toList, toList_fixLeftHeavy]

theorem insRec_toList (v : Val) : ∀ t : Node Val, keySorted (toList t) →
    (match insRec Vcmp v t with
     | .rep o t2 => toList t2 = insList (toList t) v ∧
         lookupKey (toList t) v.1 = some o
     | .ins t2 _ => toList t2 = insList (toList t) v ∧
         lookupKey (toList t) v.1 = none) := by
  intro t
  induction t with
  | nil => intro _; simp [insRec, toList, insList, lookupKey]
  | node l b d r ihl ihr =>
      intro hs
      rw [keySorted] at hs
      simp only [toList] at hs
      rw [List.pairwise_append] at hs
      obtain ⟨hl, hdr, hcross⟩ := hs
      rw [List.pairwise_cons] at hdr
      obtain ⟨hdR, hr⟩ := hdr
      have hlron : ∀ e ∈ toList l, e.1 < d.1 :=
        fun e he => hcross e he d (by simp)
      simp only [insRec, toList]
      by_cases h0 : Vcmp v d = 0
      · rw [if_pos h0]
        have hq : v.1 = d.1 := Vcmp_zero.mp h0
        refine ⟨?_, ?_⟩
        · rw [insList_append_eq (fun e he => by have := hlron e he; omega) hq]
          simp [toList]
        · rw [lookupKey_append_skip (fun e he => by have := hlron e he; omega)]
          simp only [lookupKey]
          rw [if_pos hq.symm]
      · by_cases h1 : 0 < Vcmp v d
        · rw [if_neg h0, if_pos h1]
          have hq : d.1 < v.1 := Vcmp_pos.mp h1
          have ih := ihr hr
          have hskip : lookupKey (toList l ++ d :: toList r) v.1 =
              lookupKey (toList r) v.1 := by
            rw [lookupKey_append_skip (fun e he => by
              have := hlron e he; omega)]
            simp only [lookupKey]
            rw [if_neg (by omega)]
          have hins : insList (toList l ++ d :: toList r) v =
              toList l ++ d :: insList (toList r) v :=
            insList_append_gt (fun e he => by have := hlron e he; omega) hq
          rcases hrec : insRec Vcmp v r with ⟨o, r2⟩ | ⟨r2, g⟩ <;>
            rw [hrec] at ih <;> dsimp only <;>
            obtain ⟨i1, i2⟩ := ih
          · refine ⟨?_, ?_⟩
            · rw [toList, i1, hins]
            · rw [hskip, i2]
          · cases g with
            | false =>
                refine ⟨?_, ?_⟩
                · rw [toList, i1, hins]
                · rw [hskip, i2]
            | true =>
                refine ⟨?_, ?_⟩
                · rw [insStepR_toList, i1, hins]
                · rw [hskip, i2]
        · rw [if_neg h0, if_neg h1]
          have hq : v.1 < d.1 := Vcmp_neg.mp (by omega)
          have ih := ihl hl
          have hskip : lookupKey (toList l ++ d :: toList r) v.1 =
              lookupKey (toList l) v.1 := by
            rw [lookupKey_append_stop (fun e he => ?_)]
            rcases List.mem_cons.mp he with h3 | h3
            · rw [h3]; omega
            · have := hdR e h3
              omega
          have hins : insList (toList l ++ d :: toList r) v =
              insList (toList l) v ++ d :: toList r :=
            insList_append_lt hq
          rcases hrec : insRec Vcmp v l with ⟨o, l2⟩ | ⟨l2, g⟩ <;>
            rw [hrec] at ih <;> dsimp only <;>
            obtain ⟨i1, i2⟩ := ih
          · refine ⟨?_, ?_⟩
            · rw [toList, i1, hins]
            · rw [hskip, i2]
          · cases g with
            | false =>
                refine ⟨?_, ?_⟩
                · rw [toList, i1, hins]
                · rw [hskip, i2]
            | true =>
                refine ⟨?_, ?_⟩
                · rw [insStepL_toList, i1, hins]
                · rw [hskip, i2]


theorem removeKey_eq_self {L : List Val} {k : Int}
    (h : ∀ v ∈ L, v.1 ≠ k) : removeKey L k = L := by
  induction L with
  | nil => rfl
  | cons e tl ih =>
      simp only [removeKey]
      rw [if_neg (h e (by simp)), ih (fun v hv => h v (by simp [hv]))]

theorem toList_node {α : Type} (l : Node α) (b : Int) (d : α) (r : Node α) :
    toList (.node l b d r) = toList l ++ d :: toList r := rfl

theorem delMax_toList {α : Type} [Inhabited α] : ∀ t : Node α, t ≠ .nil →
    toList t = toList (delMax t).2.1 ++ [(delMax t).1] := by
  intro t
  induction t with
  | nil => intro h; exact absurd rfl h
  | node l b d r ihl ihr =>
      intro _
      cases r with
      | nil => simp [delMax, toList]
      | node rl rb rd rr =>
          have ih := ihr (by simp)
          simp only [delMax]
          rcases hs : delMax (.node rl rb rd rr) with ⟨x, r2, sh⟩
          rw [hs] at ih
          dsimp only at ih
          cases sh with
          | false =>
              norm_num
              simp only [toList_node] at ih ⊢
              rw [ih]
              simp
          | true =>
              norm_num
              simp only [delStepR_toList, toList_node] at ih ⊢
              rw [ih]
              simp

theorem delMin_toList {α : Type} [Inhabited α] : ∀ t : Node α, t ≠ .nil →
    toList t = (delMin t).1 :: toList (delMin t).2.1 := by
  intro t
  induction t with
  | nil => intro h; exact absurd rfl h
  | node l b d r ihl ihr =>
      intro _
      cases l with
      | nil => simp [delMin, toList]
      | node ll lb ld lr =>
          have ih := ihl (by simp)
          simp only [delMin]
          rcases hs : delMin (.node ll lb ld lr) with ⟨x, l2, sh⟩
          rw [hs] at ih
          dsimp only at ih
          cases sh with
          | false =>
              norm_num
              simp only [toList_node] at ih ⊢
              rw [ih]
              simp
          | true =>
              norm_num
              simp only [delStepL_toList, toList_node] at ih ⊢
              rw [ih]
              simp

theorem delRec_toList (k : Val) : ∀ t : Node Val,
    heightsConsistent t = true → keySorted (toList t) →
    (match delRec Vcmp k t with
     | none => lookupKey (toList t) k.1 = none
     | some (o, t2, _) => toList t2 = removeKey (toList t) k.1 ∧
         lookupKey (toList t) k.1 = some o) := by
  intro t
  induction t with
  | nil => intro _ _; simp [delRec, toList, lookupKey]
  | node l b d r ihl ihr =>
      intro hc hs
      rw [heightsConsistent_node] at hc
      obtain ⟨hcl, hcr, hcb⟩ := hc
      rw [keySorted] at hs
      simp only [toList] at hs
      rw [List.pairwise_append] at hs
      obtain ⟨hl, hdr, hcross⟩ := hs
      rw [List.pairwise_cons] at hdr
      obtain ⟨hdR, hr⟩ := hdr
      have hlron : ∀ e ∈ toList l, e.1 < d.1 :=
        fun e he => hcross e he d (by simp)
      simp only [delRec, toList]
      by_cases h0 : Vcmp k d = 0
      · rw [if_pos h0]
        have hq : k.1 = d.1 := Vcmp_zero.mp h0
        have hskip : ∀ L2 : List Val,
            lookupKey (toList l ++ d :: L2) k.1 = some d := by
          intro L2
          rw [lookupKey_append_skip (fun e he => by
            have := hlron e he; omega)]
          simp only [lookupKey]
          rw [if_pos hq.symm]
        have hrem : removeKey (toList l ++ d :: toList r) k.1 =
            toList l ++ toList r := by
          rw [removeKey_append_skip (fun e he => by
            have := hlron e he; omega)]
          simp only [removeKey]
          rw [if_pos hq.symm]
        by_cases h1 : b ≤ 0 ∧ isNil r = true
        · rw [if_pos h1]
          have hr0 : r = Node.nil := by
            cases r with
            | nil => rfl
            | node _ _ _ _ => simp [isNil] at h1
          subst hr0
          try dsimp only
          refine ⟨?_, hskip []⟩
          rw [hrem]
          simp [toList]
        · rw [if_neg h1]
          by_cases h2 : 0 ≤ b ∧ isNil l = true
          · rw [if_pos h2]
            have hl0 : l = Node.nil := by
              cases l with
              | nil => rfl
              | node _ _ _ _ => simp [isNil] at h2
            subst hl0
            try dsimp only
            refine ⟨?_, hskip (toList r)⟩
            rw [hrem]
            simp [toList]
          · rw [if_neg h2]
            by_cases h3 : b < 0
            · rw [if_pos h3]
              have hlne : l ≠ Node.nil := by
                intro h
                subst h
                simp [height] at hcb
                omega
              have hmax := delMax_toList l hlne
              rcases hsm : delMax l with ⟨x, l2, sh⟩
              rw [hsm] at hmax
              dsimp only at hmax ⊢
              cases sh with
              | false =>
                  try dsimp only
                  refine ⟨?_, hskip (toList r)⟩
                  rw [hrem, toList, hmax]
                  simp
              | true =>
                  try dsimp only
                  refine ⟨?_, hskip (toList r)⟩
                  rw [hrem, delStepL_toList, hmax]
                  simp
            · rw [if_neg h3]
              have hrne : r ≠ Node.nil := by
                intro h
                subst h
                simp [height] at hcb
                simp [isNil] at h1 h2
                cases l with
                | nil => simp [height] at hcb; omega
                | node _ _ _ _ =>
                    simp at h2
                    simp [height] at hcb
                    omega
              have hmin := delMin_toList r hrne
              rcases hsm : delMin r with ⟨x, r2, sh⟩
              rw [hsm] at hmin
              dsimp only at hmin ⊢
              cases sh with
              | false =>
                  try dsimp only
                  refine ⟨?_, hskip (toList r)⟩
                  rw [hrem, toList, hmin]
              | true =>
                  try dsimp only
                  refine ⟨?_, hskip (toList r)⟩
                  rw [hrem, delStepR_toList, hmin]
      · by_cases h1 : 0 < Vcmp k d
        · rw [if_neg h0, if_pos h1]
          have hq : d.1 < k.1 := Vcmp_pos.mp h1
          have ih := ihr hcr hr
          have hskip : lookupKey (toList l ++ d :: toList r) k.1 =
              lookupKey (toList r) k.1 := by
            rw [lookupKey_append_skip (fun e he => by
              have := hlron e he; omega)]
            simp only [lookupKey]
            rw [if_neg (by omega)]
          have hrem : removeKey (toList l ++ d :: toList r) k.1 =
              toList l ++ d :: removeKey (toList r) k.1 := by
            rw [removeKey_append_skip (fun e he => by
              have := hlron e he; omega)]
            simp only [removeKey]
            rw [if_neg (by omega)]
          rcases hrec : delRec Vcmp k r with _ | ⟨o, r2, sh⟩ <;>
            rw [hrec] at ih <;> dsimp only
          · rw [hskip]
            exact ih
          · obtain ⟨i1, i2⟩ := ih
            cases sh with
            | false =>
                try dsimp only
                refine ⟨?_, by rw [hskip, i2]⟩
                rw [toList, i1, hrem]
            | true =>
                try dsimp only
                refine ⟨?_, by rw [hskip, i2]⟩
                rw [delStepR_toList, i1, hrem]
        · rw [if_neg h0, if_neg h1]
          have hq : k.1 < d.1 := Vcmp_neg.mp (by omega)
          have ih := ihl hcl hl
          have hskip : lookupKey (toList l ++ d :: toList r) k.1 =
              lookupKey (toList l) k.1 := by
            rw [lookupKey_append_stop (fun e he => ?_)]
            rcases List.mem_cons.mp he with h3 | h3
            · rw [h3]; omega
            · have := hdR e h3
              omega
          have hrem : removeKey (toList l ++ d :: toList r) k.1 =
              removeKey (toList l) k.1 ++ d :: toList r := by
            have hsub : ∀ L1 : List Val, (∀ e ∈ L1, e.1 < d.1) →
                removeKey (L1 ++ d :: toList r) k.1 =
                  removeKey L1 k.1 ++ d :: toList r := by
              intro L1
              induction L1 with
              | nil =>
                  intro _
                  simp only [List.nil_append, removeKey]
                  rw [if_neg (by omega),
                    removeKey_eq_self (fun v hv => by
                      have := hdR v hv
                      omega)]
              | cons e tl ih2 =>
                  intro hall
                  simp only [List.cons_append, removeKey, List.append_eq]
                  by_cases he : e.1 = k.1
                  · rw [if_pos he, if_pos he]
                  · rw [if_neg he, if_neg he,
                      ih2 (fun x hx => hall x (by simp [hx]))]
                    simp
            exact hsub (toList l) hlron
          rcases hrec : delRec Vcmp k l with _ | ⟨o, l2, sh⟩ <;>
            rw [hrec] at ih <;> dsimp only
          · rw [hskip]
            exact ih
          · obtain ⟨i1, i2⟩ := ih
            cases sh with
            | false =>
                try dsimp only
                refine ⟨?_, by rw [hskip, i2]⟩
                rw [toList, i1, hrem]
            | true =>
                try dsimp only
                refine ⟨?_, by rw [hskip, i2]⟩
                rw [delStepL_toList, i1, hrem]


theorem keySorted_bstNodeOrdered : ∀ t : Node Val,
    keySorted (toList t) → bstNodeOrdered t := by
  intro t
  induction t with
  | nil => intro _; trivial
  | node l b d r ihl ihr =>
      intro hs
      rw [keySorted] at hs
      simp only [toList] at hs
      rw [List.pairwise_append] at hs
      obtain ⟨hl, hdr, hcross⟩ := hs
      rw [List.pairwise_cons] at hdr
      obtain ⟨hdR, hr⟩ := hdr
      exact ⟨fun v hv => hcross v hv d (by simp), hdR, ihl hl, ihr hr⟩

theorem insRec_grew_height {α : Type} (cmp : α → α → Int) (v : α) :
    ∀ t : Node α, heightsConsistent t = true → balanceBounded t = true →
    ∀ t2 : Node α, insRec cmp v t = .ins t2 true →
    height t2 ≤ reqPath cmp v t + 1 := by
  intro t
  induction t with
  | nil =>
      intro _ _ t2 h
      simp only [insRec, InsR.ins.injEq] at h
      rw [← h.1]
      simp [height, reqPath]
  | node l b d r ihl ihr =>
      intro hc bd t2 h
      rw [heightsConsistent_node] at hc
      rw [balanceBounded_node] at bd
      obtain ⟨hcl, hcr, hcb⟩ := hc
      obtain ⟨bdl, bdr, hbl, hbr⟩ := bd
      simp only [insRec] at h
      by_cases h0 : cmp v d = 0
      · rw [if_pos h0] at h
        exact absurd h (by simp)
      · by_cases h1 : 0 < cmp v d
        · rw [if_neg h0, if_pos h1] at h
          rcases hrec : insRec cmp v r with ⟨o, r2⟩ | ⟨r2, g⟩ <;> rw [hrec] at h
          · exact absurd h (by simp)
          · cases g with
            | false => simp at h
            | true =>
                have sp := insRec_spec cmp v r hcr bdr
                rw [hrec] at sp
                norm_num at sp
                obtain ⟨s1, s2, s3, s4⟩ := sp
                have ihg := ihr hcr bdr r2 hrec
                norm_num [insStepR] at h
                split_ifs at h with g1 g2
                · simp at h
                · simp at h
                · obtain ⟨h2, _⟩ := h
                  rw [← h2]
                  simp only [height, reqPath]
                  rw [if_neg h0, if_pos h1]
                  omega
        · rw [if_neg h0, if_neg h1] at h
          rcases hrec : insRec cmp v l with ⟨o, l2⟩ | ⟨l2, g⟩ <;> rw [hrec] at h
          · exact absurd h (by simp)
          · cases g with
            | false => simp at h
            | true =>
                have sp := insRec_spec cmp v l hcl bdl
                rw [hrec] at sp
                norm_num at sp
                obtain ⟨s1, s2, s3, s4⟩ := sp
                have ihg := ihl hcl bdl l2 hrec
                norm_num [insStepL] at h
                split_ifs at h with g1 g2
                · simp at h
                · simp at h
                · obtain ⟨h2, _⟩ := h
                  rw [← h2]
                  simp only [height, reqPath]
                  rw [if_neg h0, if_neg h1]
                  omega

theorem get_some_reqPath {α : Type} (cmp : α → α → Int) (v : α) :
    ∀ t : Node α, (∃ w, rumati_avl_get cmp t v = some w) →
    reqPath cmp v t < height t := by
  intro t
  induction t with
  | nil =>
      intro ⟨w, hw⟩
      simp [rumati_avl_get] at hw
  | node l b d r ihl ihr =>
      intro ⟨w, hw⟩
      simp only [rumati_avl_get] at hw
      simp only [reqPath, height]
      by_cases h1 : 0 < cmp v d
      · rw [if_pos h1] at hw
        rw [if_neg (by omega), if_pos h1]
        have := ihr ⟨w, hw⟩
        omega
      · rw [if_neg h1] at hw
        by_cases h2 : cmp v d < 0
        · rw [if_pos h2] at hw
          rw [if_neg (by omega), if_neg h1]
          have := ihl ⟨w, hw⟩
          omega
        · rw [if_pos (by omega)]
          omega

theorem put_loop_found {α : Type} (cmp : α → α → Int) (a : Bool) (v w : α) :
    ∀ (t : Node α) (acc : List (Frame α)),
    acc.length + reqPath cmp v t ≤ RUMATI_AVL_MAX_HEIGHT - 1 →
    rumati_avl_get cmp t v = some w →
    put_loop cmp a v t acc =
      .replaced w (rebuildFrames acc (replaceNodeData cmp v t)) := by
  have h40 : RUMATI_AVL_MAX_HEIGHT = 40 := rfl
  intro t
  induction t with
  | nil =>
      intro acc _ hw
      simp [rumati_avl_get] at hw
  | node l b d r ihl ihr =>
      intro acc hcap hw
      simp only [rumati_avl_get] at hw
      simp only [put_loop, replaceNodeData]
      simp only [reqPath] at hcap
      by_cases h1 : 0 < cmp v d
      · have h0 : ¬ cmp v d = 0 := by omega
        rw [if_neg h0, if_pos h1] at hcap
        rw [if_pos h1] at hw
        rw [if_neg h0, if_pos h1,
          if_neg (show ¬ acc.length = RUMATI_AVL_MAX_HEIGHT - 1 from by omega),
          if_pos h1,
          ihr (⟨false, b, d, l⟩ :: acc)
            (by simp only [List.length_cons]; omega) hw,
          rebuildFrames_cons, applyFrame_right]
      · by_cases h2 : cmp v d < 0
        · have h0 : ¬ cmp v d = 0 := by omega
          rw [if_neg h0, if_neg h1] at hcap
          rw [if_neg h1, if_pos h2] at hw
          rw [if_neg h0, if_neg h1,
            if_neg (show ¬ acc.length = RUMATI_AVL_MAX_HEIGHT - 1 from by
              omega),
            if_neg h1, if_pos h2,
            ihl (⟨true, b, d, r⟩ :: acc)
              (by simp only [List.length_cons]; omega) hw,
            rebuildFrames_cons, applyFrame_left]
        · have h0 : cmp v d = 0 := by omega
          rw [if_neg h1, if_neg h2] at hw
          rw [if_pos h0, if_neg h1, if_neg h2]
          rw [Option.some_inj] at hw
          rw [hw]

theorem skeleton_replaceNodeData {α : Type} (cmp : α → α → Int) (v : α) :
    ∀ t : Node α, skeleton (replaceNodeData cmp v t) = skeleton t := by
  intro t
  induction t with
  | nil => rfl
  | node l b d r ihl ihr =>
      simp only [replaceNodeData]
      split_ifs <;> simp [skeleton, ihl, ihr]

theorem size_replaceNodeData {α : Type} (cmp : α → α → Int) (v : α) :
    ∀ t : Node α, size (replaceNodeData cmp v t) = size t := by
  intro t
  induction t with
  | nil => rfl
  | node l b d r ihl ihr =>
      simp only [replaceNodeData]
      split_ifs <;> simp [size, ihl, ihr]

theorem get_replaceNodeData {α : Type} (cmp : α → α → Int) (v w : α)
    (hrefl : cmp v v = 0) :
    ∀ t : Node α, rumati_avl_get cmp t v = some w →
    rumati_avl_get cmp (replaceNodeData cmp v t) v = some v := by
  intro t
  induction t with
  | nil => intro h; simp [rumati_avl_get] at h
  | node l b d r ihl ihr =>
      intro h
      simp only [rumati_avl_get] at h
      simp only [replaceNodeData]
      by_cases h1 : 0 < cmp v d
      · rw [if_pos h1] at h
        rw [if_pos h1]
        simp only [rumati_avl_get]
        rw [if_pos h1]
        exact ihr h
      · by_cases h2 : cmp v d < 0
        · rw [if_neg h1, if_pos h2] at h
          rw [if_neg h1, if_pos h2]
          simp only [rumati_avl_get]
          rw [if_pos h2, if_neg h1]
          exact ihl h
        · rw [if_neg h1, if_neg h2]
          simp only [rumati_avl_get]
          rw [if_neg (by omega : ¬ 0 < cmp v v), if_neg (by omega : ¬ cmp v v < 0)]

theorem get_smallest_none_iff {α : Type} :
    ∀ t : Node α, rumati_avl_get_smallest t = none ↔ t = .nil := by
  intro t
  induction t with
  | nil => simp [rumati_avl_get_smallest]
  | node l b d r ihl ihr =>
      cases l with
      | nil => simp [rumati_avl_get_smallest]
      | node ll lb ld lr =>
          simp only [rumati_avl_get_smallest]
          rw [ihl]
          simp

theorem get_greatest_none_iff {α : Type} :
    ∀ t : Node α, rumati_avl_get_greatest t = none ↔ t = .nil := by
  intro t
  induction t with
  | nil => simp [rumati_avl_get_greatest]
  | node l b d r ihl ihr =>
      cases r with
      | nil => simp [rumati_avl_get_greatest]
      | node rl rb rd rr =>
          simp only [rumati_avl_get_greatest]
          rw [ihr]
          simp


theorem reachable_invariant : ∀ t : Node Val, Reachable t →
    heightsConsistent t = true ∧ balanceBounded t = true ∧
    keySorted (toList t) ∧ height t ≤ RUMATI_AVL_MAX_HEIGHT := by
  have h40 : RUMATI_AVL_MAX_HEIGHT = 40 := rfl
  intro t h
  induction h with
  | empty =>
      refine ⟨rfl, rfl, ?_, ?_⟩
      · simp [toList, keySorted]
      · simp [height]
  | put t v allocOk hr hok ih =>
      obtain ⟨i1, i2, i3, i4⟩ := ih
      have hpe := put_loop_eq Vcmp allocOk v t [] (by simp)
      simp only [List.length_nil, Nat.zero_add] at hpe
      by_cases hov : RUMATI_AVL_MAX_HEIGHT - 1 < reqPath Vcmp v t
      · rw [if_pos hov] at hpe
        simp only [rumati_avl_put, hpe] at hok
        exact absurd hok (by decide)
      · rw [if_neg hov] at hpe
        have sp := insRec_spec Vcmp v t i1 i2
        have tl := insRec_toList v t i3
        rcases hrec : insRec Vcmp v t with ⟨o, t2⟩ | ⟨t2, g⟩ <;>
          rw [hrec] at hpe sp tl
        · simp only [rumati_avl_put, hpe]
          obtain ⟨s1, s2, s3⟩ := sp
          obtain ⟨t1, _⟩ := tl
          simp only [rebuildFrames]
          refine ⟨s1, s2, ?_, by omega⟩
          rw [t1]
          exact keySorted_insList v i3
        · cases allocOk with
          | false =>
              norm_num at hpe
              simp only [rumati_avl_put, hpe] at hok
              exact absurd hok (by decide)
          | true =>
              obtain ⟨s1, s2, s3⟩ := sp
              obtain ⟨t1, _⟩ := tl
              cases g with
              | false =>
                  norm_num at hpe s3
                  simp only [rumati_avl_put, hpe, rebuildFrames]
                  refine ⟨s1, s2, ?_, by omega⟩
                  rw [t1]
                  exact keySorted_insList v i3
              | true =>
                  norm_num at hpe s3
                  simp only [rumati_avl_put, hpe, put_fixup]
                  obtain ⟨s3a, _⟩ := s3
                  have hgh := insRec_grew_height Vcmp v t i1 i2 t2 hrec
                  refine ⟨s1, s2, ?_, by omega⟩
                  rw [t1]
                  exact keySorted_insList v i3
  | del t k hr hok ih =>
      obtain ⟨i1, i2, i3, i4⟩ := ih
      have hde := del_loop_eq Vcmp k t [] (by simp)
      simp only [List.length_nil, Nat.zero_add] at hde
      by_cases hov : RUMATI_AVL_MAX_HEIGHT - 1 < reqPathDel Vcmp k t
      · rw [if_pos hov] at hde
        simp only [rumati_avl_delete, hde] at hok
        exact absurd hok (by decide)
      · rw [if_neg hov] at hde
        have sp := delRec_spec Vcmp k t i1 i2
        have tl := delRec_toList k t i1 i3
        rcases hrec : delRec Vcmp k t with _ | ⟨o, t2, sh⟩ <;>
          rw [hrec] at hde sp tl
        · simp only [rumati_avl_delete, hde] at hok
          exact absurd hok (by decide)
        · obtain ⟨s1, s2, s3⟩ := sp
          obtain ⟨t1, _⟩ := tl
          cases sh with
          | false =>
              norm_num at hde s3
              simp only [rumati_avl_delete, hde, rebuildFrames]
              refine ⟨s1, s2, ?_, by omega⟩
              rw [t1]
              exact keySorted_removeKey k.1 i3
          | true =>
              norm_num at hde s3
              simp only [rumati_avl_delete, hde, del_fixup]
              refine ⟨s1, s2, ?_, by omega⟩
              rw [t1]
              exact keySorted_removeKey k.1 i3


theorem put_ok_toList (t : Node Val) (v : Val) (a : Bool)
    (i3 : keySorted (toList t))
    (hok : (rumati_avl_put Vcmp t v a).1 = RERR.OK) :
    toList (rumati_avl_put Vcmp t v a).2.2 = insList (toList t) v := by
  have hpe := put_loop_eq Vcmp a v t [] (by simp)
  simp only [List.length_nil, Nat.zero_add] at hpe
  by_cases hov : RUMATI_AVL_MAX_HEIGHT - 1 < reqPath Vcmp v t
  · rw [if_pos hov] at hpe
    simp only [rumati_avl_put, hpe] at hok
    exact absurd hok (by decide)
  · rw [if_neg hov] at hpe
    have tl := insRec_toList v t i3
    rcases hrec : insRec Vcmp v t with ⟨o, t2⟩ | ⟨t2, g⟩ <;>
      rw [hrec] at hpe tl
    · simp only [rumati_avl_put, hpe, rebuildFrames]
      exact tl.1
    · cases a with
      | false =>
          norm_num at hpe
          simp only [rumati_avl_put, hpe] at hok
          exact absurd hok (by decide)
      | true =>
          cases g with
          | false =>
              norm_num at hpe
              simp only [rumati_avl_put, hpe, rebuildFrames]
              exact tl.1
          | true =>
              norm_num at hpe
              simp only [rumati_avl_put, hpe, put_fixup]
              exact tl.1

theorem delete_ok_toList (t : Node Val) (k : Val)
    (i1 : heightsConsistent t = true) (i3 : keySorted (toList t))
    (hok : (rumati_avl_delete Vcmp t k).1 = RERR.OK) :
    toList (rumati_avl_delete Vcmp t k).2.2 = removeKey (toList t) k.1 := by
  have hde := del_loop_eq Vcmp k t [] (by simp)
  simp only [List.length_nil, Nat.zero_add] at hde
  by_cases hov : RUMATI_AVL_MAX_HEIGHT - 1 < reqPathDel Vcmp k t
  · rw [if_pos hov] at hde
    simp only [rumati_avl_delete, hde] at hok
    exact absurd hok (by decide)
  · rw [if_neg hov] at hde
    have tl := delRec_toList k t i1 i3
    rcases hrec : delRec Vcmp k t with _ | ⟨o, t2, sh⟩ <;>
      rw [hrec] at hde tl
    · simp only [rumati_avl_delete, hde] at hok
      exact absurd hok (by decide)
    · cases sh with
      | false =>
          norm_num at hde
          simp only [rumati_avl_delete, hde, rebuildFrames]
          exact tl.1
      | true =>
          norm_num at hde
          simp only [rumati_avl_delete, hde, del_fixup]
          exact tl.1

theorem destructorCalls_length {α : Type} :
    ∀ t : Node α, (destructorCalls t).length = size t := by
  intro t
  induction t with
  | nil => rfl
  | node l b d r ihl ihr =>
      simp [destructorCalls, size, ihl, ihr]
      omega


/-- C1: for every tree reachable by successful put and delete calls from the
empty tree, every node's stored balance field is in {-1, 0, +1} and equals
the height of its right subtree minus the height of its left subtree, as
recomputed independently from the structure by the brute-force checker. -/
theorem claim_C1 (t : Node Val) (h : Reachable t) : checkAVL t = true := by
  obtain ⟨i1, i2, _, _⟩ := reachable_invariant t h
  simp [checkAVL, i1, i2]

theorem claim_C1_witness :
    checkAVL (rumati_avl_delete Vcmp (rumati_avl_put Vcmp (rumati_avl_put Vcmp
      (rumati_avl_put Vcmp .nil (2, 5) true).2.2 (1, 6) true).2.2
      (3, 7) true).2.2 (1, 0)).2.2 = true :=
  claim_C1 _ (Reachable.del _ _ (Reachable.put _ _ _ (Reachable.put _ _ _
    (Reachable.put _ _ _ Reachable.empty (by decide)) (by decide))
    (by decide)) (by decide))

/-- C3: for every reachable tree, the in-order traversal lists the stored
values in strictly increasing key order (hence no duplicate keys), and at
every node all values of the left subtree compare less and all values of
the right subtree compare greater than the node's value. -/
theorem claim_C3 (t : Node Val) (h : Reachable t) :
    keySorted (toList t) ∧ bstNodeOrdered t := by
  obtain ⟨_, _, i3, _⟩ := reachable_invariant t h
  exact ⟨i3, keySorted_bstNodeOrdered t i3⟩

theorem claim_C3_witness :
    keySorted (toList (rumati_avl_put Vcmp (rumati_avl_put Vcmp
      (Node.nil : Node Val) (7, 1) true).2.2 (4, 2) true).2.2) ∧
    bstNodeOrdered (rumati_avl_put Vcmp (rumati_avl_put Vcmp
      (Node.nil : Node Val) (7, 1) true).2.2 (4, 2) true).2.2 :=
  claim_C3 _ (Reachable.put _ _ _ (Reachable.put _ _ _ Reachable.empty
    (by decide)) (by decide))

/-- C4: rotate_right on a subtree whose root D has a left child B makes B
the new root, hands B's former right child C to D as D's new left child,
makes D the right child of B, and updates exactly: D.balance += 1, then
D.balance -= B's pre-rotation balance if that was negative; B.balance += 1,
then B.balance += D's new balance if that is positive.  rotate_left is the
exact mirror with decrements and flipped signs. -/
theorem claim_C4 : ∀ (a c e : Node Val) (nb ob : Int) (bd dd : Val),
    (rumati_avl_rotate_right (.node (.node a nb bd c) ob dd e) =
      (let dbal1 := ob + 1
       let dbal2 := if nb < 0 then dbal1 - nb else dbal1
       let bbal1 := nb + 1
       let bbal2 := if 0 < dbal2 then bbal1 + dbal2 else bbal1
       .node a bbal2 bd (.node c dbal2 dd e))) ∧
    (rumati_avl_rotate_left (.node e ob dd (.node c nb bd a)) =
      (let dbal1 := ob - 1
       let dbal2 := if 0 < nb then dbal1 - nb else dbal1
       let bbal1 := nb - 1
       let bbal2 := if dbal2 < 0 then bbal1 + dbal2 else bbal1
       .node (.node e dbal2 dd c) bbal2 bd a)) := by
  intro a c e nb ob bd dd
  exact ⟨rfl, rfl⟩

/-- C5: when put returns ENOMEM or ETOOBIG, and when delete returns ETOOBIG
or ENOENT, the tree is exactly as it was before the call. -/
theorem claim_C5 : ∀ (t : Node Val) (v k : Val) (a : Bool),
    (((rumati_avl_put Vcmp t v a).1 = RERR.ENOMEM ∨
      (rumati_avl_put Vcmp t v a).1 = RERR.ETOOBIG) →
        (rumati_avl_put Vcmp t v a).2.2 = t) ∧
    (((rumati_avl_delete Vcmp t k).1 = RERR.ETOOBIG ∨
      (rumati_avl_delete Vcmp t k).1 = RERR.ENOENT) →
        (rumati_avl_delete Vcmp t k).2.2 = t) := by
  intro t v k a
  constructor
  · intro herr
    have hpe := put_loop_eq Vcmp a v t [] (by simp)
    simp only [List.length_nil, Nat.zero_add] at hpe
    by_cases hov : RUMATI_AVL_MAX_HEIGHT - 1 < reqPath Vcmp v t
    · rw [if_pos hov] at hpe
      simp [rumati_avl_put, hpe, rebuildFrames]
    · rw [if_neg hov] at hpe
      rcases hrec : insRec Vcmp v t with ⟨o, t2⟩ | ⟨t2, g⟩ <;> rw [hrec] at hpe
      · simp only [rumati_avl_put, hpe] at herr
        rcases herr with h | h <;> exact absurd h (by decide)
      · cases a with
        | false =>
            norm_num at hpe
            simp [rumati_avl_put, hpe, rebuildFrames]
        | true =>
            norm_num at hpe
            simp only [rumati_avl_put, hpe] at herr
            rcases herr with h | h <;> exact absurd h (by decide)
  · intro herr
    have hde := del_loop_eq Vcmp k t [] (by simp)
    simp only [List.length_nil, Nat.zero_add] at hde
    by_cases hov : RUMATI_AVL_MAX_HEIGHT - 1 < reqPathDel Vcmp k t
    · rw [if_pos hov] at hde
      simp [rumati_avl_delete, hde, rebuildFrames]
    · rw [if_neg hov] at hde
      rcases hrec : delRec Vcmp k t with _ | ⟨o, t2, sh⟩ <;> rw [hrec] at hde
      · simp [rumati_avl_delete, hde, rebuildFrames]
      · simp only [rumati_avl_delete, hde] at herr
        rcases herr with h | h <;> exact absurd h (by decide)

theorem claim_C5_witness :
    (rumati_avl_put Vcmp (Node.nil : Node Val) (0, 0) false).2.2 = .nil ∧
    (rumati_avl_delete Vcmp (Node.nil : Node Val) (0, 0)).2.2 = .nil :=
  ⟨(claim_C5 .nil (0, 0) (0, 0) false).1 (Or.inl (by decide)),
   (claim_C5 .nil (0, 0) (0, 0) false).2 (Or.inr (by decide))⟩

/-- C10: put and delete return ETOOBIG exactly when the descent (with, for
delete, the splice descent) would need to record a 40th update: the list's
effective capacity is RUMATI_AVL_MAX_HEIGHT - 1 = 39 entries, one fewer
than the 40-slot array, and with at most 39 recorded updates the operation
never fails with ETOOBIG. -/
theorem claim_C10 : RUMATI_AVL_MAX_HEIGHT - 1 = 39 ∧
    ∀ (t : Node Val) (v k : Val) (a : Bool),
    ((rumati_avl_put Vcmp t v a).1 = RERR.ETOOBIG ↔
      RUMATI_AVL_MAX_HEIGHT ≤ reqPath Vcmp v t) ∧
    ((rumati_avl_delete Vcmp t k).1 = RERR.ETOOBIG ↔
      RUMATI_AVL_MAX_HEIGHT ≤ reqPathDel Vcmp k t) := by
  have h40 : RUMATI_AVL_MAX_HEIGHT = 40 := rfl
  refine ⟨rfl, ?_⟩
  intro t v k a
  constructor
  · have hpe := put_loop_eq Vcmp a v t [] (by simp)
    simp only [List.length_nil, Nat.zero_add] at hpe
    by_cases hov : RUMATI_AVL_MAX_HEIGHT - 1 < reqPath Vcmp v t
    · rw [if_pos hov] at hpe
      simp only [rumati_avl_put, hpe]
      constructor
      · intro _; omega
      · intro _; trivial
    · rw [if_neg hov] at hpe
      rcases hrec : insRec Vcmp v t with ⟨o, t2⟩ | ⟨t2, g⟩ <;> rw [hrec] at hpe
      · simp only [rumati_avl_put, hpe]
        constructor
        · intro h; exact absurd h (by decide)
        · intro h; omega
      · cases a with
        | false =>
            norm_num at hpe
            simp only [rumati_avl_put, hpe]
            constructor
            · intro h; exact absurd h (by decide)
            · intro h; omega
        | true =>
            norm_num at hpe
            simp only [rumati_avl_put, hpe]
            constructor
            · intro h; exact absurd h (by decide)
            · intro h; omega
  · have hde := del_loop_eq Vcmp k t [] (by simp)
    simp only [List.length_nil, Nat.zero_add] at hde
    by_cases hov : RUMATI_AVL_MAX_HEIGHT - 1 < reqPathDel Vcmp k t
    · rw [if_pos hov] at hde
      simp only [rumati_avl_delete, hde]
      constructor
      · intro _; omega
      · intro _; trivial
    · rw [if_neg hov] at hde
      rcases hrec : delRec Vcmp k t with _ | ⟨o, t2, sh⟩ <;> rw [hrec] at hde
      · simp only [rumati_avl_delete, hde]
        constructor
        · intro h; exact absurd h (by decide)
        · intro h; omega
      · simp only [rumati_avl_delete, hde]
        constructor
        · intro h; exact absurd h (by decide)
        · intro h; omega


/-- C2, counterexample: on a concrete 7-node AVL tree, deleting key 10
makes an ancestor's balance reach +2; the rotation's new root balance is 0
and the code KEEPS propagating (the root's balance changes and the result
satisfies the AVL checker), whereas the claim's rule — stop exactly when
the new balance is 0 — would stop there and leave a tree the checker
rejects. -/
theorem claim_C2_cex :
    checkAVL delExample = true ∧
    rumati_avl_delete Vcmp delExample (10, 0) ≠
      rumati_avl_delete_specRule Vcmp delExample (10, 0) ∧
    checkAVL (rumati_avl_delete Vcmp delExample (10, 0)).2.2 = true ∧
    checkAVL (rumati_avl_delete_specRule Vcmp delExample (10, 0)).2.2 =
      false := by
  decide

/-- C2, amended: during delete's rebalance propagation, when an ancestor's
updated balance reaches ±2 and the rotation sequence is applied, the loop's
stopping test succeeds if and only if the rotated subtree kept its height,
which happens exactly when the new root balance is ∓1 (nonzero); when the
new root balance is 0 the subtree's height decreased by one and propagation
continues to the next ancestor. -/
theorem claim_C2_amended : ∀ (l r : Node Val) (d : Val),
    heightsConsistent l = true → heightsConsistent r = true →
    balanceBounded l = true → balanceBounded r = true →
    ((height r = height l + 2 →
      (((bal (fixRightHeavy (.node l 2 d r)) ≤ 0 ∧
          0 < bal (leftN (fixRightHeavy (.node l 2 d r)))) ↔
         height (fixRightHeavy (.node l 2 d r)) = height r + 1) ∧
       ((bal (fixRightHeavy (.node l 2 d r)) ≤ 0 ∧
          0 < bal (leftN (fixRightHeavy (.node l 2 d r)))) ↔
         bal (fixRightHeavy (.node l 2 d r)) ≠ 0))) ∧
     (height l = height r + 2 →
      (((0 ≤ bal (fixLeftHeavy (.node l (-2) d r)) ∧
          bal (rightN (fixLeftHeavy (.node l (-2) d r))) < 0) ↔
         height (fixLeftHeavy (.node l (-2) d r)) = height l + 1) ∧
       ((0 ≤ bal (fixLeftHeavy (.node l (-2) d r)) ∧
          bal (rightN (fixLeftHeavy (.node l (-2) d r))) < 0) ↔
         bal (fixLeftHeavy (.node l (-2) d r)) ≠ 0)))) := by
  intro l r d h1 h2 b1 b2
  constructor
  · intro hh
    obtain ⟨_, _, c3, c4⟩ := fixRightHeavy_spec l r d h1 h2 b1 b2 hh
    by_cases hz : bal r = 0
    · obtain ⟨e1, e2, e3⟩ := c3 hz
      constructor
      · constructor
        · intro _; exact e1
        · intro _; exact ⟨by omega, e3⟩
      · constructor
        · intro _; omega
        · intro _; exact ⟨by omega, e3⟩
    · obtain ⟨e1, e2, e3⟩ := c4 hz
      constructor
      · constructor
        · intro hc; omega
        · intro hc; omega
      · constructor
        · intro hc; omega
        · intro hc; omega
  · intro hh
    obtain ⟨_, _, c3, c4⟩ := fixLeftHeavy_spec l r d h1 h2 b1 b2 hh
    by_cases hz : bal l = 0
    · obtain ⟨e1, e2, e3⟩ := c3 hz
      constructor
      · constructor
        · intro _; exact e1
        · intro _; exact ⟨by omega, e3⟩
      · constructor
        · intro _; omega
        · intro _; exact ⟨by omega, e3⟩
    · obtain ⟨e1, e2, e3⟩ := c4 hz
      constructor
      · constructor
        · intro hc; omega
        · intro hc; omega
      · constructor
        · intro hc; omega
        · intro hc; omega

theorem claim_C2_amended_witness :
    (bal (fixRightHeavy (.node .nil 2 ((0, 0) : Val)
        (.node (.node .nil 0 (1, 0) .nil) 0 (2, 0)
          (.node .nil 0 (3, 0) .nil)))) ≤ 0 ∧
     0 < bal (leftN (fixRightHeavy (.node .nil 2 ((0, 0) : Val)
        (.node (.node .nil 0 (1, 0) .nil) 0 (2, 0)
          (.node .nil 0 (3, 0) .nil)))))) ↔
    bal (fixRightHeavy (.node .nil 2 ((0, 0) : Val)
        (.node (.node .nil 0 (1, 0) .nil) 0 (2, 0)
          (.node .nil 0 (3, 0) .nil)))) ≠ 0 :=
  ((claim_C2_amended .nil (.node (.node .nil 0 (1, 0) .nil) 0 (2, 0)
      (.node .nil 0 (3, 0) .nil)) (0, 0) (by decide) (by decide) (by decide)
      (by decide)).1 (by decide)).2

/-- C6: on any reachable tree, after a successful put of value (k, p), get
with key k returns (k, p); after a subsequent successful delete of k, get
with key k returns the not-found result (the NULL return, modelled
none). -/
theorem claim_C6 (t : Node Val) (h : Reachable t) (k : Int)
    (p q q2 q3 : Nat) (a : Bool)
    (hput : (rumati_avl_put Vcmp t (k, p) a).1 = RERR.OK) :
    rumati_avl_get Vcmp (rumati_avl_put Vcmp t (k, p) a).2.2 (k, q) =
      some (k, p) ∧
    ((rumati_avl_delete Vcmp (rumati_avl_put Vcmp t (k, p) a).2.2
        (k, q2)).1 = RERR.OK →
      rumati_avl_get Vcmp
        (rumati_avl_delete Vcmp (rumati_avl_put Vcmp t (k, p) a).2.2
          (k, q2)).2.2 (k, q3) = none) := by
  obtain ⟨_, _, i3, _⟩ := reachable_invariant t h
  have h2 : Reachable (rumati_avl_put Vcmp t (k, p) a).2.2 :=
    Reachable.put t (k, p) a h hput
  obtain ⟨j1, _, j3, _⟩ := reachable_invariant _ h2
  have htl2 := put_ok_toList t (k, p) a i3 hput
  constructor
  · rw [get_eq_lookupKey _ j3 (k, q), htl2]
    exact lookupKey_insList_self (toList t) (k, p)
  · intro hdel
    have h3 : Reachable (rumati_avl_delete Vcmp
        (rumati_avl_put Vcmp t (k, p) a).2.2 (k, q2)).2.2 :=
      Reachable.del _ (k, q2) h2 hdel
    obtain ⟨_, _, m3, _⟩ := reachable_invariant _ h3
    have htl3 := delete_ok_toList _ (k, q2) j1 j3 hdel
    rw [get_eq_lookupKey _ m3 (k, q3), htl3]
    exact lookupKey_removeKey_self j3

theorem claim_C6_witness :
    rumati_avl_get Vcmp (rumati_avl_put Vcmp (Node.nil : Node Val)
      (5, 9) true).2.2 (5, 0) = some (5, 9) :=
  (claim_C6 .nil Reachable.empty 5 9 0 0 0 true (by decide)).1

/-- C7: a put whose value's key equals an existing node's key replaces that
node's stored data in place, reports the previous value, returns OK, and
performs no rebalancing: the skeleton (structure and every balance field)
and the node count are unchanged. -/
theorem claim_C7 (t : Node Val) (h : Reachable t) (k : Int) (p : Nat)
    (w : Val) (a : Bool)
    (hget : rumati_avl_get Vcmp t (k, p) = some w) :
    rumati_avl_put Vcmp t (k, p) a =
      (RERR.OK, some w, replaceNodeData Vcmp (k, p) t) ∧
    skeleton (replaceNodeData Vcmp (k, p) t) = skeleton t ∧
    size (replaceNodeData Vcmp (k, p) t) = size t ∧
    rumati_avl_get Vcmp (replaceNodeData Vcmp (k, p) t) (k, p) =
      some (k, p) := by
  obtain ⟨_, _, _, i4⟩ := reachable_invariant t h
  have hreq : reqPath Vcmp (k, p) t < height t :=
    get_some_reqPath Vcmp (k, p) t ⟨w, hget⟩
  have h40 : RUMATI_AVL_MAX_HEIGHT = 40 := rfl
  have hfound := put_loop_found Vcmp a (k, p) w t []
    (by simp only [List.length_nil, Nat.zero_add]; omega) hget
  refine ⟨?_, skeleton_replaceNodeData Vcmp (k, p) t,
    size_replaceNodeData Vcmp (k, p) t,
    get_replaceNodeData Vcmp (k, p) w (by simp [Vcmp]) t hget⟩
  simp only [rumati_avl_put, hfound, rebuildFrames]

theorem claim_C7_witness :
    rumati_avl_put Vcmp (rumati_avl_put Vcmp (Node.nil : Node Val)
      (5, 1) true).2.2 (5, 2) true =
      (RERR.OK, some (5, 1),
        replaceNodeData Vcmp (5, 2)
          (rumati_avl_put Vcmp (Node.nil : Node Val) (5, 1) true).2.2) :=
  (claim_C7 _ (Reachable.put _ _ _ Reachable.empty (by decide)) 5 2 (5, 1)
    true (by decide)).1

/-- C8: a single clear or destroy invokes the destructor exactly once per
stored value (n values, n invocations; an empty tree, zero).  The third
conjunct exhibits the defect behind the claim's last sentence:
rumati_avl_clear does not reset the tree's root link, so a destroy after a
clear traverses the already-freed nodes again and repeats all size-many
destructor invocations instead of making none. -/
theorem claim_C8 : ∀ t : Node Val,
    (rumati_avl_clear t).1.length = size t ∧
    (rumati_avl_destroy t).length = size t ∧
    (rumati_avl_clear t).2 = t ∧
    (rumati_avl_clear t).1.length +
      (rumati_avl_destroy (rumati_avl_clear t).2).length = 2 * size t := by
  intro t
  have hl := destructorCalls_length t
  refine ⟨hl, hl, rfl, ?_⟩
  simp only [rumati_avl_clear, rumati_avl_destroy, hl]
  omega

/-- C9, counterexample: with a legitimate user comparator that orders the
NULL pointer among the values, a tree storing NULL (reachable by one
successful put) makes rumati_avl_get return NULL both for the present key
and for an absent key: the C return value does not distinguish a stored
absence-like value from not-found. -/
theorem claim_C9_cex :
    rumati_avl_put ncmp .nil none true = (RERR.OK, none, nullTree) ∧
    (none : PVal) ∈ toList nullTree ∧
    (some 5 : PVal) ∉ toList nullTree ∧
    rumati_avl_get_ptr ncmp none nullTree none = none ∧
    rumati_avl_get_ptr ncmp none nullTree (some 5) = none := by
  decide

/-- C9, amended: each lookup returns the stored data of the found node, or
the NULL pointer when no node qualifies; at the tagged Option level the
none result coincides exactly with absence (for get: no node with the key;
for get_smallest / get_greatest: the empty tree).  Because the C signature
returns a bare possibly-null pointer, a stored NULL value is reported
identically to not-found and the two are not distinguishable. -/
theorem claim_C9_amended : ∀ (t : Node Val) (q : Val),
    keySorted (toList t) →
    ((rumati_avl_get Vcmp t q = none ↔ lookupKey (toList t) q.1 = none) ∧
     (rumati_avl_get_smallest t = none ↔ t = .nil) ∧
     (rumati_avl_get_greatest t = none ↔ t = .nil)) := by
  intro t q hs
  refine ⟨?_, get_smallest_none_iff t, get_greatest_none_iff t⟩
  rw [get_eq_lookupKey t hs q]

theorem claim_C9_amended_witness :
    (rumati_avl_get Vcmp (.node .nil 0 (3, 4) .nil) (5, 0) = none ↔
      lookupKey (toList (.node .nil 0 ((3 : Int), 4) .nil)) 5 = none) ∧
    (rumati_avl_get_smallest (.node .nil 0 ((3 : Int), (4 : Nat)) .nil) =
        none ↔ (.node .nil 0 ((3 : Int), (4 : Nat)) .nil : Node Val) = .nil) ∧
    (rumati_avl_get_greatest (.node .nil 0 ((3 : Int), (4 : Nat)) .nil) =
        none ↔ (.node .nil 0 ((3 : Int), (4 : Nat)) .nil : Node Val) = .nil) :=
  claim_C9_amended (.node .nil 0 (3, 4) .nil) (5, 0) (by decide)

end Rumati
